import Mathlib

/-!
# Verification of the octads leaf-oriented search tree and pool allocator

This file gives a shallow embedding of the `octads` library's core:
the leaf-oriented `SearchTree` (src/trees/search_tree.rs), its iterators,
the `from_sorted` top-down builder (modelled as an explicit heap/stack
machine mirroring the imperative loop), and the `BlockAllocator`
(src/allocator.rs).  Theorems below settle the frozen claims about them.

Conventions of the embedding:
* A `TreeNode` in the source is in one of three legal states (empty root,
  leaf, internal).  A non-empty subtree is the inductive `STree`; the whole
  tree is `Option STree` (with `none` for the dedicated empty root node)
  paired with the `length` field.
* Raw pointers become either structural subtrees (where the code only
  traverses) or natural-number heap addresses (for `from_sorted`, whose loop
  mutates nodes through pointers after linking them).
* `Option`/`Except` model the `Option` returns and the abort/UB paths.
-/

namespace Octads

/-- A non-empty leaf-oriented subtree: a `TreeNode` whose state is either
`is_leaf` (left = `TreePtr::Val`, right null) or `has_subtrees`
(left = `TreePtr::Node`, right non-null).  Values live only at leaves;
internal nodes carry a routing key. -/
inductive STree (K : Type) (V : Type) where
  | lf (key : K) (val : V)
  | nd (key : K) (left : STree K V) (right : STree K V)
deriving Repr, DecidableEq

/-- The `SearchTree` struct: the dedicated root node (in its empty state when
`root = none`) and the `length` field. -/
structure SearchTree (K : Type) (V : Type) where
  root : Option (STree K V)
  length : Nat
deriving Repr, DecidableEq

variable {K V : Type}

/-- `SearchTree::new` / `default`: a fresh tree has its pre-allocated root in
the empty state and `length == 0`. -/
def SearchTree.empty : SearchTree K V := ⟨none, 0⟩

/-- `SearchTree::len`. -/
def SearchTree.len (t : SearchTree K V) : Nat := t.length

/-- The descent of `SearchTree::get` below the root (search_tree.rs:59-72):
while the node is internal go left iff `key < node.key` else right; at the
leaf return the value iff the leaf key matches. -/
def getS [LinearOrder K] (s : STree K V) (k : K) : Option V :=
  match s with
  | .lf key v => if k = key then some v else none
  | .nd key l r => if k < key then getS l k else getS r k

/-- `SearchTree::get` (search_tree.rs:53-74): `None` on the empty root, else
descend. -/
def SearchTree.get [LinearOrder K] (t : SearchTree K V) (k : K) : Option V :=
  match t.root with
  | none => none
  | some s => getS s k

/-- The part of `SearchTree::insert` below a non-empty root
(search_tree.rs:85-125).  Descend to the leaf; if the key is already there
swap the boxed value and return the old one; otherwise split the leaf into an
internal node with the old leaf and a new leaf, ordered by the comparison
(when the old leaf key is smaller the node key becomes the new key, in the
other branch the node key is left unchanged). -/
def insertS [LinearOrder K] (k : K) (v : V) : STree K V → Option V × STree K V
  | .lf key v0 =>
    if k = key then (some v0, .lf key v)
    else if key < k then (none, .nd k (.lf key v0) (.lf k v))
    else (none, .nd key (.lf k v) (.lf key v0))
  | .nd key l r =>
    if k < key then
      let p := insertS k v l
      (p.1, .nd key p.2 r)
    else
      let p := insertS k v r
      (p.1, .nd key l p.2)

/-- `SearchTree::insert` (search_tree.rs:76-126).  NOTE: the source increments
`self.length` unconditionally on entry (line 77) and does not undo it on the
key-already-present early return; the model reproduces that. -/
def SearchTree.insert [LinearOrder K] (t : SearchTree K V) (k : K) (v : V) :
    Option V × SearchTree K V :=
  match t.root with
  | none => (none, ⟨some (.lf k v), t.length + 1⟩)
  | some s =>
    let p := insertS k v s
    (p.1, ⟨some p.2, t.length + 1⟩)

/-- The loop of `SearchTree::remove` below a root with subtrees
(search_tree.rs:145-172).  `upper_node` is the last internal node on the
descent and `other_node` the sibling of the direction taken; when the
descent's child is a leaf, a match copies the sibling's fields over the
parent (the subtree is replaced by the sibling) and yields the value, and a
mismatch changes nothing. -/
def removeS [LinearOrder K] (k : K) : STree K V → Option V × STree K V
  | .lf key v => (none, .lf key v)
  | .nd key l r =>
    if k < key then
      match l with
      | .lf lk lv =>
        if k = lk then (some lv, r) else (none, .nd key (.lf lk lv) r)
      | .nd lk ll lr =>
        let p := removeS k (.nd lk ll lr)
        (p.1, .nd key p.2 r)
    else
      match r with
      | .lf rk rv =>
        if k = rk then (some rv, l) else (none, .nd key l (.lf rk rv))
      | .nd rk rl rr =>
        let p := removeS k (.nd rk rl rr)
        (p.1, .nd key l p.2)

/-- `SearchTree::remove` (search_tree.rs:128-174): empty root yields `None`;
a root that is itself the only leaf is reset to empty on a key match;
otherwise run the descent loop.  `length` is decremented exactly on the
successful paths. -/
def SearchTree.remove [LinearOrder K] (t : SearchTree K V) (k : K) :
    Option V × SearchTree K V :=
  match t.root with
  | none => (none, t)
  | some (.lf key v) =>
    if k = key then (some v, ⟨none, t.length - 1⟩) else (none, t)
  | some (.nd key l r) =>
    let p := removeS k (.nd key l r)
    match p.1 with
    | some v => (some v, ⟨some p.2, t.length - 1⟩)
    | none => (none, ⟨some p.2, t.length⟩)

/-- In-order list of the leaves (key, value) of a subtree. -/
def toList : STree K V → List (K × V)
  | .lf k v => [(k, v)]
  | .nd _ l r => toList l ++ toList r

/-- The stored entries of a tree, in leaf order. -/
def SearchTree.entries (t : SearchTree K V) : List (K × V) :=
  match t.root with
  | none => []
  | some s => toList s

/-- Keys of the leaves, in order. -/
def leafKeys (s : STree K V) : List K := (toList s).map Prod.fst

/-- The tree order invariant (spec section 3): for every internal node, every
leaf under `left` has key `< node.key` and every leaf under `right` has key
`≥ node.key`. -/
def Inv [LinearOrder K] : STree K V → Prop
  | .lf _ _ => True
  | .nd key l r =>
    (∀ x ∈ leafKeys l, x < key) ∧ (∀ x ∈ leafKeys r, key ≤ x) ∧ Inv l ∧ Inv r

/-- A well-formed `SearchTree`: its root subtree (if any) satisfies the order
invariant. -/
def SearchTree.Wf [LinearOrder K] (t : SearchTree K V) : Prop :=
  match t.root with
  | none => True
  | some s => Inv s

theorem toList_ne_nil (s : STree K V) : toList s ≠ [] := by
  induction s with
  | lf k v => simp [toList]
  | nd key l r ihl ihr => simp [toList, ihl]

theorem leafKeys_lf (k : K) (v : V) : leafKeys (.lf k v) = [k] := rfl

theorem leafKeys_nd (key : K) (l r : STree K V) :
    leafKeys (.nd key l r) = leafKeys l ++ leafKeys r := by
  simp [leafKeys, toList]

/-- `get` finds only keys that are leaf keys. -/
theorem getS_some_mem [LinearOrder K] {s : STree K V} {k : K} {v : V}
    (h : getS s k = some v) : k ∈ leafKeys s := by
  induction s with
  | lf key v0 =>
    by_cases hk : k = key
    · simp [leafKeys, toList, hk]
    · simp [getS, hk] at h
  | nd key l r ihl ihr =>
    rw [leafKeys_nd]
    by_cases hk : k < key
    · simp only [getS, if_pos hk] at h
      exact List.mem_append_left _ (ihl h)
    · simp only [getS, if_neg hk] at h
      exact List.mem_append_right _ (ihr h)

theorem getS_eq_none_of_not_mem [LinearOrder K] {s : STree K V} {k : K}
    (h : k ∉ leafKeys s) : getS s k = none := by
  cases hg : getS s k with
  | none => rfl
  | some v => exact absurd (getS_some_mem hg) h

end Octads

namespace Octads

variable {K V : Type}

/-! ## Point-operation laws (claims C5, C7) -/

/-- `insert` returns exactly what `get` sees: the descent of the two
operations takes the same branches. -/
theorem insertS_fst [LinearOrder K] (s : STree K V) (k : K) (v : V) :
    (insertS k v s).1 = getS s k := by
  induction s with
  | lf key v0 =>
    by_cases hk : k = key
    · simp [insertS, getS, hk]
    · by_cases h2 : key < k <;> simp [insertS, getS, hk, h2]
  | nd key l r ihl ihr =>
    by_cases hk : k < key <;> simp [insertS, getS, hk, ihl, ihr]

/-- Effect of `insert`'s descent on `get`: the new binding is visible at `k`
and every other key reads as before.  Holds for every subtree shape, with no
order invariant, because `insert` and `get` descend along the same
comparisons. -/
theorem getS_insertS [LinearOrder K] (s : STree K V) (k k' : K) (v : V) :
    getS (insertS k v s).2 k' = if k' = k then some v else getS s k' := by
  induction s with
  | lf key v0 =>
    by_cases hk : k = key
    · subst hk
      by_cases h1 : k' = k <;> simp [insertS, getS, h1]
    · by_cases h2 : key < k
      · simp only [insertS, if_neg hk, if_pos h2]
        by_cases h3 : k' = k
        · subst h3; simp [getS, lt_irrefl]
        · simp only [if_neg h3]
          by_cases h4 : k' < k
          · simp [getS, h4]
          · have hkey : ¬ k' = key := fun he => h4 (by rw [he]; exact h2)
            simp [getS, h4, h3, hkey]
      · have h2' : k < key := lt_of_le_of_ne (le_of_not_lt h2) hk
        simp only [insertS, if_neg hk, if_neg h2]
        by_cases h3 : k' = k
        · subst h3; simp [getS, h2']
        · by_cases h4 : k' < key
          · have : ¬ k' = key := fun he => absurd (he ▸ h4) (lt_irrefl key)
            simp [getS, h3, h4, this]
          · simp [getS, h3, h4]
  | nd key l r ihl ihr =>
    by_cases hk : k < key
    · simp only [insertS, if_pos hk]
      by_cases h4 : k' < key
      · simp [getS, h4, ihl]
      · have h3 : ¬ k' = k := fun he => h4 (he ▸ hk)
        simp [getS, h4, h3]
    · simp only [insertS, if_neg hk]
      by_cases h4 : k' < key
      · have h3 : ¬ k' = k := fun he => hk (he ▸ h4)
        simp [getS, h4, h3]
      · simp [getS, h4, ihr]

/-- Keys after an insert: the new key plus the old keys. -/
theorem leafKeys_insertS [LinearOrder K] (s : STree K V) (k : K) (v : V) :
    ∀ x ∈ leafKeys (insertS k v s).2, x = k ∨ x ∈ leafKeys s := by
  induction s with
  | lf key v0 =>
    intro x hx
    by_cases hk : k = key
    · simp only [insertS, if_pos hk] at hx
      right; simpa [leafKeys, toList, hk] using hx
    · by_cases h2 : key < k
      · simp only [insertS, if_neg hk, if_pos h2, leafKeys_nd, leafKeys_lf,
          List.mem_append, List.mem_singleton] at hx
        simp only [leafKeys_lf, List.mem_singleton]
        tauto
      · simp only [insertS, if_neg hk, if_neg h2, leafKeys_nd, leafKeys_lf,
          List.mem_append, List.mem_singleton] at hx
        simp only [leafKeys_lf, List.mem_singleton]
        tauto
  | nd key l r ihl ihr =>
    intro x hx
    rw [leafKeys_nd, List.mem_append]
    by_cases hk : k < key
    · simp only [insertS, if_pos hk, leafKeys_nd, List.mem_append] at hx
      rcases hx with h | h
      · rcases ihl x h with h' | h' <;> tauto
      · tauto
    · simp only [insertS, if_neg hk, leafKeys_nd, List.mem_append] at hx
      rcases hx with h | h
      · tauto
      · rcases ihr x h with h' | h' <;> tauto

/-- `insert` preserves the order invariant. -/
theorem inv_insertS [LinearOrder K] (s : STree K V) (k : K) (v : V)
    (h : Inv s) : Inv (insertS k v s).2 := by
  induction s with
  | lf key v0 =>
    by_cases hk : k = key
    · simp [insertS, hk, Inv]
    · by_cases h2 : key < k
      · simp only [insertS, if_neg hk, if_pos h2]
        refine ⟨?_, ?_, trivial, trivial⟩ <;> simp [leafKeys_lf, h2]
      · have h2' : k < key := lt_of_le_of_ne (le_of_not_lt h2) hk
        simp only [insertS, if_neg hk, if_neg h2]
        refine ⟨?_, ?_, trivial, trivial⟩ <;> simp [leafKeys_lf, h2']
  | nd key l r ihl ihr =>
    obtain ⟨hl, hr, hil, hir⟩ := h
    by_cases hk : k < key
    · simp only [insertS, if_pos hk]
      refine ⟨?_, hr, ihl hil, hir⟩
      intro x hx
      rcases leafKeys_insertS l k v x hx with h' | h'
      · exact h' ▸ hk
      · exact hl x h'
    · simp only [insertS, if_neg hk]
      refine ⟨hl, ?_, hil, ihr hir⟩
      intro x hx
      rcases leafKeys_insertS r k v x hx with h' | h'
      · exact h' ▸ le_of_not_lt hk
      · exact hr x h'

end Octads

namespace Octads

variable {K V : Type}

/-! Reduction equations for `removeS`, by the shape of the child on the
descent side. -/

theorem removeS_left_lf [LinearOrder K] {k key : K} (lk : K) (lv : V)
    (r : STree K V) (hk : k < key) :
    removeS k (.nd key (.lf lk lv) r) =
      if k = lk then (some lv, r) else (none, .nd key (.lf lk lv) r) := by
  rw [removeS.eq_def]
  simp only [if_pos hk]

theorem removeS_left_nd [LinearOrder K] {k key : K} (lk : K)
    (ll lr r : STree K V) (hk : k < key) :
    removeS k (.nd key (.nd lk ll lr) r) =
      ((removeS k (.nd lk ll lr)).1,
        .nd key (removeS k (.nd lk ll lr)).2 r) := by
  rw [removeS.eq_def]
  simp only [if_pos hk]

theorem removeS_right_lf [LinearOrder K] {k key : K} (rk : K) (rv : V)
    (l : STree K V) (hk : ¬ k < key) :
    removeS k (.nd key l (.lf rk rv)) =
      if k = rk then (some rv, l) else (none, .nd key l (.lf rk rv)) := by
  rw [removeS.eq_def]
  simp only [if_neg hk]

theorem removeS_right_nd [LinearOrder K] {k key : K} (rk : K)
    (l rl rr : STree K V) (hk : ¬ k < key) :
    removeS k (.nd key l (.nd rk rl rr)) =
      ((removeS k (.nd rk rl rr)).1,
        .nd key l (removeS k (.nd rk rl rr)).2) := by
  rw [removeS.eq_def]
  simp only [if_neg hk]

/-- `remove`'s loop returns exactly what `get` sees (on the internal-node
shapes it is invoked on): both descend along the same comparisons. -/
theorem removeS_fst_aux [LinearOrder K] (k : K) :
    ∀ s : STree K V,
      (removeS k s).1 =
        match s with
        | .lf _ _ => (none : Option V)
        | .nd _ _ _ => getS s k := by
  intro s
  induction s with
  | lf key v => rfl
  | nd key l r ihl ihr =>
    by_cases hk : k < key
    · cases l with
      | lf lk lv =>
        rw [removeS_left_lf lk lv r hk]
        by_cases he : k = lk
        · subst he
          simp [getS, hk]
        · simp [getS, hk, he]
      | nd lk ll lr =>
        rw [removeS_left_nd lk ll lr r hk]
        simpa [getS, hk] using ihl
    · cases r with
      | lf rk rv =>
        rw [removeS_right_lf rk rv l hk]
        by_cases he : k = rk
        · subst he
          simp [getS, hk]
        · simp [getS, hk, he]
      | nd rk rl rr =>
        rw [removeS_right_nd rk l rl rr hk]
        simpa [getS, hk] using ihr

theorem removeS_fst [LinearOrder K] (k key : K) (l r : STree K V) :
    (removeS k (.nd key l r)).1 = getS (.nd key l r) k :=
  removeS_fst_aux k (.nd key l r)

/-- An unsuccessful `remove` descent leaves the subtree untouched. -/
theorem removeS_none_eq [LinearOrder K] (k : K) :
    ∀ s : STree K V, (removeS k s).1 = none → (removeS k s).2 = s := by
  intro s
  induction s with
  | lf key v => intro _; rfl
  | nd key l r ihl ihr =>
    intro h
    by_cases hk : k < key
    · cases l with
      | lf lk lv =>
        by_cases he : k = lk
        · rw [removeS_left_lf lk lv r hk, if_pos he] at h
          cases h
        · rw [removeS_left_lf lk lv r hk, if_neg he]
      | nd lk ll lr =>
        rw [removeS_left_nd lk ll lr r hk] at h ⊢
        rw [ihl h]
    · cases r with
      | lf rk rv =>
        by_cases he : k = rk
        · rw [removeS_right_lf rk rv l hk, if_pos he] at h
          cases h
        · rw [removeS_right_lf rk rv l hk, if_neg he]
      | nd rk rl rr =>
        rw [removeS_right_nd rk l rl rr hk] at h ⊢
        rw [ihr h]

/-- `remove` never adds leaves. -/
theorem leafKeys_removeS [LinearOrder K] (k : K) :
    ∀ s : STree K V, ∀ x ∈ leafKeys (removeS k s).2, x ∈ leafKeys s := by
  intro s
  induction s with
  | lf key v => intro x hx; exact hx
  | nd key l r ihl ihr =>
    intro x hx
    rw [leafKeys_nd, List.mem_append]
    by_cases hk : k < key
    · cases l with
      | lf lk lv =>
        rw [removeS_left_lf lk lv r hk] at hx
        by_cases he : k = lk
        · rw [if_pos he] at hx
          tauto
        · rw [if_neg he] at hx
          simp only [leafKeys_nd, List.mem_append] at hx
          tauto
      | nd lk ll lr =>
        rw [removeS_left_nd lk ll lr r hk] at hx
        simp only [leafKeys_nd, List.mem_append] at hx
        rcases hx with h | h
        · exact Or.inl (ihl x h)
        · tauto
    · cases r with
      | lf rk rv =>
        rw [removeS_right_lf rk rv l hk] at hx
        by_cases he : k = rk
        · rw [if_pos he] at hx
          tauto
        · rw [if_neg he] at hx
          simp only [leafKeys_nd, List.mem_append] at hx
          tauto
      | nd rk rl rr =>
        rw [removeS_right_nd rk l rl rr hk] at hx
        simp only [leafKeys_nd, List.mem_append] at hx
        rcases hx with h | h
        · tauto
        · exact Or.inr (ihr x h)

/-- `remove` preserves the order invariant: the parent is overwritten with the
whole sibling subtree, whose keys were already on the correct side. -/
theorem inv_removeS [LinearOrder K] (k : K) :
    ∀ s : STree K V, Inv s → Inv (removeS k s).2 := by
  intro s
  induction s with
  | lf key v => intro h; exact h
  | nd key l r ihl ihr =>
    intro h
    obtain ⟨hl, hr, hil, hir⟩ := h
    by_cases hk : k < key
    · cases l with
      | lf lk lv =>
        rw [removeS_left_lf lk lv r hk]
        by_cases he : k = lk
        · rw [if_pos he]
          exact hir
        · rw [if_neg he]
          exact ⟨hl, hr, trivial, hir⟩
      | nd lk ll lr =>
        rw [removeS_left_nd lk ll lr r hk]
        exact ⟨fun x hx => hl x (leafKeys_removeS k _ x hx), hr, ihl hil, hir⟩
    · cases r with
      | lf rk rv =>
        rw [removeS_right_lf rk rv l hk]
        by_cases he : k = rk
        · rw [if_pos he]
          exact hil
        · rw [if_neg he]
          exact ⟨hl, hr, hil, trivial⟩
      | nd rk rl rr =>
        rw [removeS_right_nd rk l rl rr hk]
        exact ⟨hl, fun x hx => hr x (leafKeys_removeS k _ x hx), hil, ihr hir⟩

end Octads

namespace Octads

variable {K V : Type}

/-- Effect of the `remove` loop on `get`, on well-formed internal subtrees:
the binding for `k` disappears and every other key reads as before. -/
theorem getS_removeS_aux [LinearOrder K] (k k' : K) :
    ∀ s : STree K V, Inv s →
      getS (removeS k s).2 k' =
        match s with
        | .lf _ _ => getS s k'
        | .nd _ _ _ => if k' = k then none else getS s k' := by
  intro s
  induction s with
  | lf key v => intro _; rfl
  | nd key l r ihl ihr =>
    intro h
    obtain ⟨hl, hr, hil, hir⟩ := h
    by_cases hk : k < key
    · cases l with
      | lf lk lv =>
        rw [removeS_left_lf lk lv r hk]
        by_cases he : k = lk
        · subst he
          rw [if_pos rfl]
          by_cases h3 : k' = k
        -- the result is the sibling subtree; the removed key is absent there
          · subst h3
            have hm : k' ∉ leafKeys r := fun hm => absurd (hr k' hm) (not_le_of_lt hk)
            simp [getS_eq_none_of_not_mem hm]
          · by_cases h4 : k' < key
            · have hm : k' ∉ leafKeys r := fun hm => absurd (hr k' hm) (not_le_of_lt h4)
              simp [getS, h3, h4, getS_eq_none_of_not_mem hm]
            · simp [getS, h3, h4]
        · rw [if_neg he]
          by_cases h3 : k' = k
          · subst h3
            simp [getS, hk, he]
          · simp [getS, h3]
      | nd lk ll lr =>
        rw [removeS_left_nd lk ll lr r hk]
        by_cases h4 : k' < key
        · have hrec := ihl hil
          simp only [getS, if_pos h4]
          simpa using hrec
        · have h3 : ¬ k' = k := fun he => h4 (by rw [he]; exact hk)
          simp [getS, h3, h4]
    · cases r with
      | lf rk rv =>
        rw [removeS_right_lf rk rv l hk]
        by_cases he : k = rk
        · subst he
          rw [if_pos rfl]
          by_cases h3 : k' = k
          · subst h3
            have hm : k' ∉ leafKeys l :=
              fun hm => absurd (hl k' hm) (not_lt_of_le (le_of_not_lt hk))
            simp [getS_eq_none_of_not_mem hm]
          · by_cases h4 : k' < key
            · simp [getS, h3, h4]
            · have hm : k' ∉ leafKeys l :=
                fun hmem => absurd (hl k' hmem) (not_lt_of_le (le_of_not_lt h4))
              simp [getS, h3, h4, getS_eq_none_of_not_mem hm]
        · rw [if_neg he]
          by_cases h3 : k' = k
          · subst h3
            simp [getS, hk, he]
          · simp [getS, h3]
      | nd rk rl rr =>
        rw [removeS_right_nd rk l rl rr hk]
        by_cases h4 : k' < key
        · have h3 : ¬ k' = k := fun he => hk (by rw [← he]; exact h4)
          simp [getS, h3, h4]
        · have hrec := ihr hir
          simp only [getS, if_neg h4]
          simpa using hrec

/-! ## `SearchTree`-level map laws -/

/-- `insert` makes `k` read as `v` and leaves every other key unchanged
(no well-formedness needed). -/
theorem get_insert [LinearOrder K] (t : SearchTree K V) (k k' : K) (v : V) :
    (t.insert k v).2.get k' = if k' = k then some v else t.get k' := by
  obtain ⟨root, len⟩ := t
  cases root with
  | none =>
    by_cases h3 : k' = k <;> simp [SearchTree.insert, SearchTree.get, getS, h3]
  | some s =>
    simpa [SearchTree.insert, SearchTree.get] using getS_insertS s k k' v

/-- `insert` preserves well-formedness. -/
theorem wf_insert [LinearOrder K] (t : SearchTree K V) (k : K) (v : V)
    (h : t.Wf) : (t.insert k v).2.Wf := by
  obtain ⟨root, len⟩ := t
  cases root with
  | none => simp [SearchTree.insert, SearchTree.Wf, Inv]
  | some s =>
    simpa [SearchTree.insert, SearchTree.Wf] using
      inv_insertS s k v (by simpa [SearchTree.Wf] using h)

/-- On a well-formed tree, `remove` deletes the binding for `k` and leaves
every other key unchanged. -/
theorem get_remove [LinearOrder K] (t : SearchTree K V) (k k' : K)
    (h : t.Wf) : (t.remove k).2.get k' = if k' = k then none else t.get k' := by
  obtain ⟨root, len⟩ := t
  cases root with
  | none => simp [SearchTree.remove, SearchTree.get]
  | some s =>
    cases s with
    | lf key v =>
      by_cases he : k = key
      · subst he
        by_cases h3 : k' = k
        · simp [SearchTree.remove, SearchTree.get, h3]
        · simp [SearchTree.remove, SearchTree.get, getS, h3]
      · by_cases h3 : k' = k
        · subst h3
          simp [SearchTree.remove, SearchTree.get, getS, he]
        · simp [SearchTree.remove, SearchTree.get, he, h3]
    | nd key l r =>
      have hInv : Inv (.nd key l r) := by simpa [SearchTree.Wf] using h
      have haux := getS_removeS_aux k k' (.nd key l r) hInv
      simp only at haux
      cases hp : (removeS k (.nd key l r)).1 with
      | none => simpa [SearchTree.remove, SearchTree.get, hp] using haux
      | some v => simpa [SearchTree.remove, SearchTree.get, hp] using haux

/-- `remove` preserves well-formedness. -/
theorem wf_remove [LinearOrder K] (t : SearchTree K V) (k : K)
    (h : t.Wf) : (t.remove k).2.Wf := by
  obtain ⟨root, len⟩ := t
  cases root with
  | none => simpa [SearchTree.remove] using h
  | some s =>
    cases s with
    | lf key v =>
      by_cases he : k = key
      · simp [SearchTree.remove, SearchTree.Wf, he]
      · simpa [SearchTree.remove, SearchTree.Wf, he] using h
    | nd key l r =>
      have hInv : Inv (.nd key l r) := by simpa [SearchTree.Wf] using h
      have := inv_removeS k (.nd key l r) hInv
      cases hp : (removeS k (.nd key l r)).1 with
      | none => simpa [SearchTree.remove, SearchTree.Wf, hp] using this
      | some v => simpa [SearchTree.remove, SearchTree.Wf, hp] using this

end Octads

namespace Octads

variable {K V : Type}

/-! ## Histories of inserts and removes (claims C1, C5) -/

/-- One map operation. -/
inductive MapOp (K V : Type) where
  | ins (k : K) (v : V)
  | del (k : K)

/-- Apply one operation to the tree (dropping the returned `Option`). -/
def applyOp [LinearOrder K] (t : SearchTree K V) : MapOp K V → SearchTree K V
  | .ins k v => (t.insert k v).2
  | .del k => (t.remove k).2

/-- Run a history of operations from the fresh empty tree. -/
def runOps [LinearOrder K] (ops : List (MapOp K V)) : SearchTree K V :=
  ops.foldl applyOp .empty

/-- The reference map semantics of one operation: `insert` binds the last
value, `remove` unbinds. -/
def modelStep [DecidableEq K] (m : K → Option V) : MapOp K V → K → Option V
  | .ins k v => fun k' => if k' = k then some v else m k'
  | .del k => fun k' => if k' = k then none else m k'

/-- The reference map after a history. -/
def modelRun [DecidableEq K] (ops : List (MapOp K V)) : K → Option V :=
  ops.foldl modelStep (fun _ => none)

theorem wf_applyOp [LinearOrder K] (t : SearchTree K V) (op : MapOp K V)
    (h : t.Wf) : (applyOp t op).Wf := by
  cases op with
  | ins k v => exact wf_insert t k v h
  | del k => exact wf_remove t k h

theorem get_applyOp [LinearOrder K] (t : SearchTree K V) (op : MapOp K V)
    (m : K → Option V) (hW : t.Wf) (hm : ∀ x, t.get x = m x) (k : K) :
    (applyOp t op).get k = modelStep m op k := by
  cases op with
  | ins k0 v =>
    rw [applyOp, get_insert, modelStep, hm k]
  | del k0 =>
    rw [applyOp, get_remove t k0 k hW, modelStep, hm k]

theorem runOps_spec [LinearOrder K] (ops : List (MapOp K V)) :
    ∀ (t : SearchTree K V) (m : K → Option V), t.Wf → (∀ x, t.get x = m x) →
      (ops.foldl applyOp t).Wf ∧
        ∀ k, (ops.foldl applyOp t).get k = (ops.foldl modelStep m) k := by
  induction ops with
  | nil => exact fun t m hW hm => ⟨hW, hm⟩
  | cons op rest ih =>
    intro t m hW hm
    exact ih (applyOp t op) (modelStep m op) (wf_applyOp t op hW)
      (get_applyOp t op m hW hm)

theorem wf_runOps [LinearOrder K] (ops : List (MapOp K V)) : (runOps ops).Wf :=
  (runOps_spec ops .empty (fun _ => none) trivial (fun _ => rfl)).1

/-! ## Further point-operation facts (claim C7) -/

/-- Shape of a subtree: keys and structure with values erased. -/
def shapeS : STree K V → STree K Unit
  | .lf k _ => .lf k ()
  | .nd k l r => .nd k (shapeS l) (shapeS r)

/-- Shape of the whole tree. -/
def SearchTree.shape (t : SearchTree K V) : Option (STree K Unit) :=
  t.root.map shapeS

/-- Replacing the value of an already-present key is structurally invisible. -/
theorem shapeS_insertS [LinearOrder K] (k : K) (v : V) :
    ∀ s : STree K V, getS s k ≠ none → shapeS (insertS k v s).2 = shapeS s := by
  intro s
  induction s with
  | lf key v0 =>
    intro h
    by_cases he : k = key
    · simp [insertS, he, shapeS]
    · simp [getS, he] at h
  | nd key l r ihl ihr =>
    intro h
    by_cases hk : k < key
    · simp only [getS, if_pos hk] at h
      simp [insertS, hk, shapeS, ihl h]
    · simp only [getS, if_neg hk] at h
      simp [insertS, hk, shapeS, ihr h]

/-- Inserting a fresh key adds exactly one leaf to the descent subtree. -/
theorem toList_len_insertS [LinearOrder K] (k : K) (v : V) :
    ∀ s : STree K V, getS s k = none →
      (toList (insertS k v s).2).length = (toList s).length + 1 := by
  intro s
  induction s with
  | lf key v0 =>
    intro h
    by_cases he : k = key
    · simp [getS, he] at h
    · by_cases h2 : key < k <;> simp [insertS, he, h2, toList]
  | nd key l r ihl ihr =>
    intro h
    by_cases hk : k < key
    · simp only [getS, if_pos hk] at h
      simp only [insertS, if_pos hk, toList, List.length_append, ihl h]
      omega
    · simp only [getS, if_neg hk] at h
      simp only [insertS, if_neg hk, toList, List.length_append, ihr h]
      omega

/-- `remove` returns exactly what `get` sees. -/
theorem remove_fst [LinearOrder K] (t : SearchTree K V) (k : K) :
    (t.remove k).1 = t.get k := by
  obtain ⟨root, len⟩ := t
  cases root with
  | none => rfl
  | some s =>
    cases s with
    | lf key v =>
      by_cases he : k = key <;> simp [SearchTree.remove, SearchTree.get, getS, he]
    | nd key l r =>
      have := removeS_fst k key l r
      cases hp : (removeS k (.nd key l r)).1 with
      | none => simp [SearchTree.remove, SearchTree.get, hp, ← this]
      | some v => simp [SearchTree.remove, SearchTree.get, hp, ← this]

/-- `remove` of an absent key is the identity on the whole tree state. -/
theorem remove_absent [LinearOrder K] (t : SearchTree K V) (k : K)
    (h : t.get k = none) : (t.remove k).2 = t := by
  obtain ⟨root, len⟩ := t
  cases root with
  | none => rfl
  | some s =>
    cases s with
    | lf key v =>
      have he : ¬ k = key := by
        intro he
        simp [SearchTree.get, getS, he] at h
      simp [SearchTree.remove, he]
    | nd key l r =>
      have hp : (removeS k (.nd key l r)).1 = none := by
        rw [removeS_fst]
        simpa [SearchTree.get] using h
      simp [SearchTree.remove, hp, removeS_none_eq k _ hp]

end Octads

namespace Octads

variable {K V : Type}

/-- C1: the claim says `len()` always equals the number of live bindings
(= leaves) and in particular that inserting an already-bound key leaves
`len()` unchanged.  The code violates it: `insert` increments `length`
unconditionally on entry (search_tree.rs:77) and the key-already-present
early return (search_tree.rs:94-98) does not undo it.  Evaluating the model
at the failing input `insert(1,10); insert(1,20)` from the empty tree: the
second insert does return the old value `10`, but `len()` becomes `2` while
the tree still has exactly one leaf / live binding. -/
theorem c1_len_bug :
    ((((SearchTree.empty (K := Nat) (V := Nat)).insert 1 10).2.insert 1 20).1
        = some 10) ∧
    ((((SearchTree.empty (K := Nat) (V := Nat)).insert 1 10).2.insert 1 20).2.len
        = 2) ∧
    ((((SearchTree.empty (K := Nat) (V := Nat)).insert 1 10).2.insert 1 20).2.entries.length
        = 1) :=
  ⟨rfl, rfl, rfl⟩

/-- C5: after any finite history of `insert`/`remove` operations starting
from the empty tree, `get k` returns the last value inserted for `k` that was
not subsequently removed (the reference map semantics), and `None` otherwise.
(`get` takes `&self` in the source and is modelled as a pure function, so it
mutates nothing.) -/
theorem c5_get_history [LinearOrder K] (ops : List (MapOp K V)) (k : K) :
    (runOps ops).get k = modelRun ops k :=
  (runOps_spec ops .empty (fun _ => none) trivial (fun _ => rfl)).2 k

/-- C7: `insert(k,v)` returns the previously bound value exactly when `k` was
bound, in which case the tree shape (structure and keys) is unchanged;
otherwise it returns `None` and adds exactly one leaf.  `remove(&k)` returns
the previously bound value exactly when `k` was bound, and otherwise returns
`None` with the tree state unchanged. -/
theorem c7_insert_remove_contract [LinearOrder K] (t : SearchTree K V)
    (k : K) (v : V) :
    ((t.insert k v).1 = t.get k) ∧
    ((t.get k).isSome = true → (t.insert k v).2.shape = t.shape) ∧
    (t.get k = none → (t.insert k v).2.entries.length = t.entries.length + 1) ∧
    ((t.remove k).1 = t.get k) ∧
    (t.get k = none → (t.remove k).2 = t) := by
  refine ⟨?_, ?_, ?_, remove_fst t k, remove_absent t k⟩
  · obtain ⟨root, len⟩ := t
    cases root with
    | none => rfl
    | some s => simpa [SearchTree.insert, SearchTree.get] using insertS_fst s k v
  · intro h
    obtain ⟨root, len⟩ := t
    cases root with
    | none => simp [SearchTree.get] at h
    | some s =>
      have hne : getS s k ≠ none := by
        intro hn
        simp [SearchTree.get, hn] at h
      simpa [SearchTree.insert, SearchTree.shape] using shapeS_insertS k v s hne
  · intro h
    obtain ⟨root, len⟩ := t
    cases root with
    | none => simp [SearchTree.insert, SearchTree.entries, toList]
    | some s =>
      have hn : getS s k = none := by simpa [SearchTree.get] using h
      simpa [SearchTree.insert, SearchTree.entries] using toList_len_insertS k v s hn

/-- Witness for C7 at concrete inputs: on the one-leaf tree `{1 ↦ 10}`,
inserting the fresh key `2` and removing the absent key `2` exercise the
`get = none` hypotheses, and overwriting the bound key `1` exercises the
`isSome` hypothesis. -/
theorem c7_witness_check :
    (((SearchTree.mk (some (.lf 1 10)) 1 : SearchTree Nat Nat).insert 2 20).1
        = (SearchTree.mk (some (.lf 1 10)) 1 : SearchTree Nat Nat).get 2) ∧
    (((SearchTree.mk (some (.lf 1 10)) 1 : SearchTree Nat Nat).insert 2 20).2.entries.length
        = (SearchTree.mk (some (.lf 1 10)) 1 : SearchTree Nat Nat).entries.length + 1) ∧
    (((SearchTree.mk (some (.lf 1 10)) 1 : SearchTree Nat Nat).insert 1 99).2.shape
        = (SearchTree.mk (some (.lf 1 10)) 1 : SearchTree Nat Nat).shape) ∧
    (((SearchTree.mk (some (.lf 1 10)) 1 : SearchTree Nat Nat).remove 2).2
        = (SearchTree.mk (some (.lf 1 10)) 1 : SearchTree Nat Nat)) := by
  have h1 := c7_insert_remove_contract
    (SearchTree.mk (some (.lf 1 10)) 1 : SearchTree Nat Nat) 2 20
  have h2 := c7_insert_remove_contract
    (SearchTree.mk (some (.lf 1 10)) 1 : SearchTree Nat Nat) 1 99
  exact ⟨h1.1, h1.2.2.1 rfl, h2.2.1 rfl, h1.2.2.2.2 rfl⟩

end Octads

namespace Octads

variable {K V : Type}

/-! ## Double-ended iterator (claims C4, C6)

`SearchTreeIter` keeps two independent traversal stacks of node pointers and
the two last-yielded keys (search_tree.rs:340-408).  The stacks are modelled
as lists of subtrees (the tree is not mutated during iteration). -/

/-- Number of nodes of a subtree (termination measure). -/
def stSize : STree K V → Nat
  | .lf _ _ => 1
  | .nd _ l r => stSize l + stSize r + 1

/-- Total node count of a traversal stack. -/
def stackSize (σ : List (STree K V)) : Nat := (σ.map stSize).sum

/-- The body of `SearchTreeIter::next` (search_tree.rs:354-376): pop; on an
internal node push right then left and loop; on a leaf, if `last_rev_key` is
set and `last_rev_key <= key` return `None` (frontier crossed, nothing else
updated), else record and yield it. -/
def stepF [LinearOrder K] (lastB : Option K) :
    List (STree K V) → Option (K × V) × List (STree K V)
  | [] => (none, [])
  | .nd _ l r :: rest => stepF lastB (l :: r :: rest)
  | .lf k v :: rest =>
    match lastB with
    | some bk => if bk ≤ k then (none, rest) else (some (k, v), rest)
    | none => (some (k, v), rest)
termination_by σ => stackSize σ
decreasing_by
  simp only [stackSize, List.map_cons, List.sum_cons, stSize]
  omega

/-- The body of `SearchTreeIter::next_back` (search_tree.rs:383-405): pop; on
an internal node push left then right and loop; on a leaf, if
`last_iter_key >= key` return `None`, else record and yield it. -/
def stepB [LinearOrder K] (lastF : Option K) :
    List (STree K V) → Option (K × V) × List (STree K V)
  | [] => (none, [])
  | .nd _ l r :: rest => stepB lastF (r :: l :: rest)
  | .lf k v :: rest =>
    match lastF with
    | some fk => if fk ≥ k then (none, rest) else (some (k, v), rest)
    | none => (some (k, v), rest)
termination_by σ => stackSize σ
decreasing_by
  simp only [stackSize, List.map_cons, List.sum_cons, stSize]
  omega

/-- The `SearchTreeIter` state: the two stacks and the two bookkeeping keys. -/
structure IterSt (K V : Type) where
  fwd : List (STree K V)
  bwd : List (STree K V)
  lastF : Option K
  lastB : Option K

/-- `SearchTree::iter` (search_tree.rs:194-208): both stacks seeded with the
root unless the root is empty. -/
def SearchTree.iterA (t : SearchTree K V) : IterSt K V :=
  match t.root with
  | none => ⟨[], [], none, none⟩
  | some s => ⟨[s], [s], none, none⟩

/-- One `next` call on the iterator state. -/
def iterNext [LinearOrder K] (st : IterSt K V) : Option (K × V) × IterSt K V :=
  match stepF st.lastB st.fwd with
  | (some kv, σ') => (some kv, ⟨σ', st.bwd, some kv.1, st.lastB⟩)
  | (none, σ') => (none, ⟨σ', st.bwd, st.lastF, st.lastB⟩)

/-- One `next_back` call on the iterator state. -/
def iterNextBack [LinearOrder K] (st : IterSt K V) :
    Option (K × V) × IterSt K V :=
  match stepB st.lastF st.bwd with
  | (some kv, σ') => (some kv, ⟨st.fwd, σ', st.lastF, some kv.1⟩)
  | (none, σ') => (none, ⟨st.fwd, σ', st.lastF, st.lastB⟩)

/-- Remaining forward leaf sequence of a stack. -/
def flattenF (σ : List (STree K V)) : List (K × V) :=
  σ.foldr (fun t acc => toList t ++ acc) []

/-- Remaining backward leaf sequence of a stack (pop order). -/
def flattenB (σ : List (STree K V)) : List (K × V) :=
  σ.foldr (fun t acc => (toList t).reverse ++ acc) []

theorem flattenF_nil : flattenF ([] : List (STree K V)) = [] := rfl

theorem flattenF_cons (t : STree K V) (σ : List (STree K V)) :
    flattenF (t :: σ) = toList t ++ flattenF σ := rfl

theorem flattenB_nil : flattenB ([] : List (STree K V)) = [] := rfl

theorem flattenB_cons (t : STree K V) (σ : List (STree K V)) :
    flattenB (t :: σ) = (toList t).reverse ++ flattenB σ := rfl

theorem flattenF_eq_nil {σ : List (STree K V)} (h : flattenF σ = []) :
    σ = [] := by
  cases σ with
  | nil => rfl
  | cons t rest =>
    rw [flattenF_cons] at h
    exact absurd (List.append_eq_nil.mp h).1 (toList_ne_nil t)

theorem flattenB_eq_nil {σ : List (STree K V)} (h : flattenB σ = []) :
    σ = [] := by
  cases σ with
  | nil => rfl
  | cons t rest =>
    rw [flattenB_cons] at h
    have := (List.append_eq_nil.mp h).1
    rw [List.reverse_eq_nil_iff] at this
    exact absurd this (toList_ne_nil t)

/-- Whether a forward pop of leaf key `k` hits the reverse frontier. -/
def crossF [LinearOrder K] (lastB : Option K) (k : K) : Bool :=
  match lastB with
  | some bk => decide (bk ≤ k)
  | none => false

/-- Whether a backward pop of leaf key `k` hits the forward frontier. -/
def crossB [LinearOrder K] (lastF : Option K) (k : K) : Bool :=
  match lastF with
  | some fk => decide (fk ≥ k)
  | none => false

theorem stepF_spec [LinearOrder K] (lastB : Option K) :
    ∀ (n : Nat) (σ : List (STree K V)), stackSize σ ≤ n →
      ∀ k v tl, flattenF σ = (k, v) :: tl →
        ∃ σ', flattenF σ' = tl ∧
          stepF lastB σ = (if crossF lastB k then none else some (k, v), σ') := by
  intro n
  induction n with
  | zero =>
    intro σ hsz k v tl hfl
    cases σ with
    | nil => simp [flattenF_nil] at hfl
    | cons t rest =>
      exfalso
      cases t <;> simp [stackSize, stSize] at hsz
  | succ n ih =>
    intro σ hsz k v tl hfl
    cases σ with
    | nil => simp [flattenF_nil] at hfl
    | cons t rest =>
      cases t with
      | lf k0 v0 =>
        rw [flattenF_cons] at hfl
        simp only [toList, List.cons_append, List.nil_append, List.cons.injEq,
          Prod.mk.injEq] at hfl
        obtain ⟨⟨hk, hv⟩, htl⟩ := hfl
        subst hk; subst hv
        refine ⟨rest, htl.symm ▸ rfl, ?_⟩
        cases hb : lastB with
        | none => simp [stepF, crossF, hb]
        | some bk =>
          by_cases hle : bk ≤ k0 <;> simp [stepF, crossF, hb, hle]
      | nd key l r =>
        have hfl' : flattenF (l :: r :: rest) = (k, v) :: tl := by
          rw [flattenF_cons] at hfl
          simp only [toList, List.append_assoc] at hfl
          rw [flattenF_cons, flattenF_cons]
          simpa using hfl
        have hsz' : stackSize (l :: r :: rest) ≤ n := by
          simp only [stackSize, List.map_cons, List.sum_cons, stSize] at hsz ⊢
          omega
        obtain ⟨σ', h1, h2⟩ := ih (l :: r :: rest) hsz' k v tl hfl'
        exact ⟨σ', h1, by rw [stepF]; exact h2⟩

theorem stepB_spec [LinearOrder K] (lastF : Option K) :
    ∀ (n : Nat) (σ : List (STree K V)), stackSize σ ≤ n →
      ∀ k v tl, flattenB σ = (k, v) :: tl →
        ∃ σ', flattenB σ' = tl ∧
          stepB lastF σ = (if crossB lastF k then none else some (k, v), σ') := by
  intro n
  induction n with
  | zero =>
    intro σ hsz k v tl hfl
    cases σ with
    | nil => simp [flattenB_nil] at hfl
    | cons t rest =>
      exfalso
      cases t <;> simp [stackSize, stSize] at hsz
  | succ n ih =>
    intro σ hsz k v tl hfl
    cases σ with
    | nil => simp [flattenB_nil] at hfl
    | cons t rest =>
      cases t with
      | lf k0 v0 =>
        rw [flattenB_cons] at hfl
        simp only [toList, List.reverse_singleton, List.cons_append,
          List.nil_append, List.cons.injEq, Prod.mk.injEq] at hfl
        obtain ⟨⟨hk, hv⟩, htl⟩ := hfl
        subst hk; subst hv
        refine ⟨rest, htl.symm ▸ rfl, ?_⟩
        cases hb : lastF with
        | none => simp [stepB, crossB, hb]
        | some fk =>
          by_cases hle : fk ≥ k0 <;> simp [stepB, crossB, hb, hle]
      | nd key l r =>
        have hfl' : flattenB (r :: l :: rest) = (k, v) :: tl := by
          rw [flattenB_cons] at hfl
          simp only [toList, List.reverse_append, List.append_assoc] at hfl
          rw [flattenB_cons, flattenB_cons]
          simpa using hfl
        have hsz' : stackSize (r :: l :: rest) ≤ n := by
          simp only [stackSize, List.map_cons, List.sum_cons, stSize] at hsz ⊢
          omega
        obtain ⟨σ', h1, h2⟩ := ih (r :: l :: rest) hsz' k v tl hfl'
        exact ⟨σ', h1, by rw [stepB]; exact h2⟩

theorem stepF_nil_of_flatten [LinearOrder K] (lastB : Option K)
    {σ : List (STree K V)} (h : flattenF σ = []) :
    stepF lastB σ = (none, []) := by
  rw [flattenF_eq_nil h, stepF]

theorem stepB_nil_of_flatten [LinearOrder K] (lastF : Option K)
    {σ : List (STree K V)} (h : flattenB σ = []) :
    stepB lastF σ = (none, []) := by
  rw [flattenB_eq_nil h, stepB]

end Octads

namespace Octads

variable {K V : Type}

/-- Direction of one iterator call. -/
inductive Dir where
  | f
  | b
deriving Repr, DecidableEq

/-- Drive one iterator through a sequence of `next` (`.f`) / `next_back`
(`.b`) calls, collecting each call's result. -/
def runIter [LinearOrder K] (st : IterSt K V) :
    List Dir → List (Option (K × V)) × IterSt K V
  | [] => ([], st)
  | d :: ds =>
    let p := match d with
      | .f => iterNext st
      | .b => iterNextBack st
    let q := runIter p.2 ds
    (p.1 :: q.1, q.2)

theorem runIter_nil [LinearOrder K] (st : IterSt K V) :
    runIter st [] = ([], st) := rfl

theorem runIter_cons_f [LinearOrder K] (st : IterSt K V) (ds : List Dir) :
    runIter st (.f :: ds) =
      ((iterNext st).1 :: (runIter (iterNext st).2 ds).1,
        (runIter (iterNext st).2 ds).2) := rfl

theorem runIter_cons_b [LinearOrder K] (st : IterSt K V) (ds : List Dir) :
    runIter st (.b :: ds) =
      ((iterNextBack st).1 :: (runIter (iterNextBack st).2 ds).1,
        (runIter (iterNextBack st).2 ds).2) := rfl

/-- Ordering of the stored sequence, at the index level. -/
theorem sorted_key_lt [LinearOrder K] {full : List (K × V)}
    (hs : (full.map Prod.fst).Sorted (· < ·)) {p q : Nat}
    (hp : p < full.length) (hq : q < full.length) (hpq : p < q) :
    (full[p]).1 < (full[q]).1 := by
  have := List.pairwise_iff_getElem.mp hs p q (by simpa using hp)
    (by simpa using hq) hpq
  simpa using this

theorem sorted_key_le [LinearOrder K] {full : List (K × V)}
    (hs : (full.map Prod.fst).Sorted (· < ·)) {p q : Nat}
    (hp : p < full.length) (hq : q < full.length) (hpq : p ≤ q) :
    (full[p]).1 ≤ (full[q]).1 := by
  rcases lt_or_eq_of_le hpq with h | h
  · exact le_of_lt (sorted_key_lt hs hp hq h)
  · subst h
    exact le_refl _

/-- Invariant of a live (no `None` returned yet) iterator state: `i` forward
yields and `length - j` backward yields have happened, the stacks hold the
segments not yet popped, and the bookkeeping keys are the frontier entries. -/
structure Inv1 [LinearOrder K] (full : List (K × V)) (i j : Nat)
    (st : IterSt K V) : Prop where
  hij : i ≤ j
  hj : j ≤ full.length
  hf : flattenF st.fwd = full.drop i
  hb : flattenB st.bwd = (full.take j).reverse
  hlf : st.lastF = if i = 0 then none else full[i - 1]?.map Prod.fst
  hlb : st.lastB = full[j]?.map Prod.fst

/-- Invariant of a dead iterator state (some call has returned `None`): the
stacks still hold segments, the bookkeeping keys point at positions `pf`/`pb`,
and both directions are past their frontier, so every further call returns
`None`. -/
structure DeadISt [LinearOrder K] (full : List (K × V)) (i j pf pb : Nat)
    (st : IterSt K V) : Prop where
  hf : flattenF st.fwd = full.drop i
  hb : flattenB st.bwd = (full.take j).reverse
  hlf : st.lastF = if pf = 0 then none else full[pf - 1]?.map Prod.fst
  hlb : st.lastB = full[pb]?.map Prod.fst
  hfd : full.length ≤ i ∨ (pb ≤ i ∧ pb < full.length)
  hbd : j = 0 ∨ (0 < pf ∧ j ≤ pf)
  hjl : j ≤ full.length
  hpfl : pf ≤ full.length

end Octads

namespace Octads

variable {K V : Type}

theorem takerev_decomp {full : List (K × V)} {j : Nat} (h0 : 0 < j)
    (hj1 : j - 1 < full.length) :
    (full.take j).reverse
      = full[j - 1] :: (full.take (j - 1)).reverse := by
  obtain ⟨m, rfl⟩ : ∃ m, j = m + 1 := ⟨j - 1, by omega⟩
  have hm : m < full.length := by omega
  rw [List.take_succ, List.getElem?_eq_getElem hm]
  simp

/-- A live state with room ahead (`i < j`): `next` yields entry `i` and the
state stays live at `(i + 1, j)`. -/
theorem phase1_next_yield [LinearOrder K] {full : List (K × V)} {i j : Nat}
    {st : IterSt K V} (hs : (full.map Prod.fst).Sorted (· < ·))
    (h : Inv1 full i j st) (hij : i < j) :
    ∃ st', iterNext st = (full[i]?, st') ∧ Inv1 full (i + 1) j st' := by
  have hi : i < full.length := lt_of_lt_of_le hij h.hj
  have hd : flattenF st.fwd = full[i] :: full.drop (i + 1) := by
    rw [h.hf, List.drop_eq_getElem_cons hi]
  obtain ⟨σ', h1, h2⟩ := stepF_spec st.lastB (stackSize st.fwd) st.fwd le_rfl
    (full[i]).1 (full[i]).2 (full.drop (i + 1)) hd
  have hcross : crossF st.lastB (full[i]).1 = false := by
    rw [h.hlb]
    rcases Nat.lt_or_ge j full.length with hjl | hjl
    · rw [List.getElem?_eq_getElem hjl]
      simp [crossF, not_le.mpr (sorted_key_lt hs hi hjl hij)]
    · rw [List.getElem?_eq_none hjl]
      rfl
  rw [hcross, if_neg (by simp)] at h2
  refine ⟨⟨σ', st.bwd, some (full[i]).1, st.lastB⟩, ?_, ?_⟩
  · rw [List.getElem?_eq_getElem hi]
    simp [iterNext, h2]
  · refine ⟨by omega, h.hj, by simpa using h1, h.hb, ?_, h.hlb⟩
    simp [List.getElem?_eq_getElem hi]

/-- A live state with `i = j`: `next` returns `None` and the state is dead. -/
theorem phase1_next_dead [LinearOrder K] {full : List (K × V)} {i j : Nat}
    {st : IterSt K V} (h : Inv1 full i j st) (hij : i = j) :
    ∃ i' st', iterNext st = (none, st') ∧ DeadISt full i' j i j st' := by
  subst hij
  rcases Nat.lt_or_ge i full.length with hi | hi
  · -- the pop of entry `i` crosses the reverse frontier (`last_rev_key` is
    -- exactly the key of entry `i`)
    have hd : flattenF st.fwd = full[i] :: full.drop (i + 1) := by
      rw [h.hf, List.drop_eq_getElem_cons hi]
    obtain ⟨σ', h1, h2⟩ := stepF_spec st.lastB (stackSize st.fwd) st.fwd le_rfl
      (full[i]).1 (full[i]).2 (full.drop (i + 1)) hd
    have hcross : crossF st.lastB (full[i]).1 = true := by
      rw [h.hlb, List.getElem?_eq_getElem hi]
      simp [crossF]
    rw [hcross, if_pos rfl] at h2
    refine ⟨i + 1, ⟨σ', st.bwd, st.lastF, st.lastB⟩, by simp [iterNext, h2], ?_⟩
    refine ⟨by simpa using h1, h.hb, h.hlf, h.hlb, Or.inr ⟨by omega, hi⟩, ?_,
      h.hj, h.hj⟩
    rcases Nat.eq_zero_or_pos i with h0 | h0
    · exact Or.inl h0
    · exact Or.inr ⟨h0, le_refl i⟩
  · -- the forward stack is exhausted
    have hnil : flattenF st.fwd = [] := by
      rw [h.hf, List.drop_eq_nil_of_le hi]
    have h2 := stepF_nil_of_flatten st.lastB hnil
    refine ⟨i, ⟨[], st.bwd, st.lastF, st.lastB⟩, by simp [iterNext, h2], ?_⟩
    refine ⟨by simp [flattenF_nil, List.drop_eq_nil_of_le hi], h.hb, h.hlf,
      h.hlb, Or.inl hi, ?_, h.hj, h.hj⟩
    rcases Nat.eq_zero_or_pos i with h0 | h0
    · exact Or.inl h0
    · exact Or.inr ⟨h0, le_refl i⟩

/-- A live state with room ahead: `next_back` yields entry `j - 1` and the
state stays live at `(i, j - 1)`. -/
theorem phase1_back_yield [LinearOrder K] {full : List (K × V)} {i j : Nat}
    {st : IterSt K V} (hs : (full.map Prod.fst).Sorted (· < ·))
    (h : Inv1 full i j st) (hij : i < j) :
    ∃ st', iterNextBack st = (full[j - 1]?, st') ∧ Inv1 full i (j - 1) st' := by
  have h0 : 0 < j := by omega
  have hj1 : j - 1 < full.length := by
    have := h.hj
    omega
  have hd : flattenB st.bwd = full[j - 1] :: (full.take (j - 1)).reverse := by
    rw [h.hb, takerev_decomp h0 hj1]
  obtain ⟨σ', h1, h2⟩ := stepB_spec st.lastF (stackSize st.bwd) st.bwd le_rfl
    (full[j - 1]).1 (full[j - 1]).2 ((full.take (j - 1)).reverse) hd
  have hcross : crossB st.lastF (full[j - 1]).1 = false := by
    rw [h.hlf]
    rcases Nat.eq_zero_or_pos i with h0i | h0i
    · simp [h0i, crossB]
    · have hi1 : i - 1 < full.length := by omega
      rw [if_neg (by omega), List.getElem?_eq_getElem hi1]
      simp [crossB, not_le.mpr (sorted_key_lt hs hi1 hj1 (by omega))]
  rw [hcross, if_neg (by simp)] at h2
  refine ⟨⟨st.fwd, σ', st.lastF, some (full[j - 1]).1⟩, ?_, ?_⟩
  · rw [List.getElem?_eq_getElem hj1]
    simp [iterNextBack, h2]
  · refine ⟨by omega, by omega, h.hf, by simpa using h1, h.hlf, ?_⟩
    simp [List.getElem?_eq_getElem hj1]

/-- A live state with `i = j`: `next_back` returns `None` and the state is
dead. -/
theorem phase1_back_dead [LinearOrder K] {full : List (K × V)} {i j : Nat}
    {st : IterSt K V} (h : Inv1 full i j st) (hij : i = j) :
    ∃ j' st', iterNextBack st = (none, st') ∧ DeadISt full i j' i j st' := by
  subst hij
  rcases Nat.eq_zero_or_pos i with h0 | h0
  · -- the backward stack is exhausted
    subst h0
    have hnil : flattenB st.bwd = [] := by
      rw [h.hb]
      simp
    have h2 := stepB_nil_of_flatten st.lastF hnil
    refine ⟨0, ⟨st.fwd, [], st.lastF, st.lastB⟩, by simp [iterNextBack, h2], ?_⟩
    refine ⟨h.hf, by simp [flattenB_nil], h.hlf, h.hlb, ?_, Or.inl rfl,
      by omega, h.hj⟩
    rcases Nat.lt_or_ge 0 full.length with hl | hl
    · exact Or.inr ⟨le_refl 0, hl⟩
    · exact Or.inl (by omega)
  · -- the pop of entry `i - 1` crosses the forward frontier
    have hi1 : i - 1 < full.length := by
      have := h.hj
      omega
    have hd : flattenB st.bwd = full[i - 1] :: (full.take (i - 1)).reverse := by
      rw [h.hb, takerev_decomp h0 hi1]
    obtain ⟨σ', h1, h2⟩ := stepB_spec st.lastF (stackSize st.bwd) st.bwd le_rfl
      (full[i - 1]).1 (full[i - 1]).2 ((full.take (i - 1)).reverse) hd
    have hcross : crossB st.lastF (full[i - 1]).1 = true := by
      rw [h.hlf, if_neg (by omega), List.getElem?_eq_getElem hi1]
      simp [crossB]
    rw [hcross, if_pos rfl] at h2
    refine ⟨i - 1, ⟨st.fwd, σ', st.lastF, st.lastB⟩,
      by simp [iterNextBack, h2], ?_⟩
    refine ⟨h.hf, by simpa using h1, h.hlf, h.hlb, ?_, ?_, by omega, h.hj⟩
    · rcases Nat.lt_or_ge i full.length with hl | hl
      · exact Or.inr ⟨le_refl i, hl⟩
      · exact Or.inl hl
    · exact Or.inr ⟨h0, by omega⟩

end Octads

namespace Octads

variable {K V : Type}

/-- A dead state stays dead under `next` (the next forward leaf is at or past
the reverse frontier, or the stack is exhausted). -/
theorem dead_next [LinearOrder K] {full : List (K × V)} {i j pf pb : Nat}
    {st : IterSt K V} (hs : (full.map Prod.fst).Sorted (· < ·))
    (d : DeadISt full i j pf pb st) :
    ∃ i' st', iterNext st = (none, st') ∧ DeadISt full i' j pf pb st' := by
  rcases Nat.lt_or_ge i full.length with hi | hi
  · have hpb : pb ≤ i ∧ pb < full.length := by
      rcases d.hfd with hl | hr
      · omega
      · exact hr
    have hd : flattenF st.fwd = full[i] :: full.drop (i + 1) := by
      rw [d.hf, List.drop_eq_getElem_cons hi]
    obtain ⟨σ', h1, h2⟩ := stepF_spec st.lastB (stackSize st.fwd) st.fwd le_rfl
      (full[i]).1 (full[i]).2 (full.drop (i + 1)) hd
    have hcross : crossF st.lastB (full[i]).1 = true := by
      rw [d.hlb, List.getElem?_eq_getElem hpb.2]
      simp [crossF, sorted_key_le hs hpb.2 hi hpb.1]
    rw [hcross, if_pos rfl] at h2
    refine ⟨i + 1, ⟨σ', st.bwd, st.lastF, st.lastB⟩, by simp [iterNext, h2], ?_⟩
    exact ⟨by simpa using h1, d.hb, d.hlf, d.hlb, Or.inr ⟨by omega, hpb.2⟩,
      d.hbd, d.hjl, d.hpfl⟩
  · have hnil : flattenF st.fwd = [] := by
      rw [d.hf, List.drop_eq_nil_of_le hi]
    have h2 := stepF_nil_of_flatten st.lastB hnil
    refine ⟨i, ⟨[], st.bwd, st.lastF, st.lastB⟩, by simp [iterNext, h2], ?_⟩
    exact ⟨by simp [flattenF_nil, List.drop_eq_nil_of_le hi], d.hb, d.hlf,
      d.hlb, Or.inl hi, d.hbd, d.hjl, d.hpfl⟩

/-- A dead state stays dead under `next_back`. -/
theorem dead_back [LinearOrder K] {full : List (K × V)} {i j pf pb : Nat}
    {st : IterSt K V} (hs : (full.map Prod.fst).Sorted (· < ·))
    (d : DeadISt full i j pf pb st) :
    ∃ j' st', iterNextBack st = (none, st') ∧ DeadISt full i j' pf pb st' := by
  rcases Nat.eq_zero_or_pos j with h0 | h0
  · subst h0
    have hnil : flattenB st.bwd = [] := by
      rw [d.hb]
      simp
    have h2 := stepB_nil_of_flatten st.lastF hnil
    refine ⟨0, ⟨st.fwd, [], st.lastF, st.lastB⟩, by simp [iterNextBack, h2], ?_⟩
    exact ⟨d.hf, by simp [flattenB_nil], d.hlf, d.hlb, d.hfd, Or.inl rfl,
      by omega, d.hpfl⟩
  · have hpf : 0 < pf ∧ j ≤ pf := by
      rcases d.hbd with hl | hr
      · omega
      · exact hr
    have hj1 : j - 1 < full.length := by
      have := d.hjl
      omega
    have hpf1 : pf - 1 < full.length := by
      have := d.hpfl
      omega
    have hd : flattenB st.bwd = full[j - 1] :: (full.take (j - 1)).reverse := by
      rw [d.hb, takerev_decomp h0 hj1]
    obtain ⟨σ', h1, h2⟩ := stepB_spec st.lastF (stackSize st.bwd) st.bwd le_rfl
      (full[j - 1]).1 (full[j - 1]).2 ((full.take (j - 1)).reverse) hd
    have hcross : crossB st.lastF (full[j - 1]).1 = true := by
      rw [d.hlf, if_neg (by omega), List.getElem?_eq_getElem hpf1]
      simp [crossB, sorted_key_le hs hj1 hpf1 (by omega)]
    rw [hcross, if_pos rfl] at h2
    refine ⟨j - 1, ⟨st.fwd, σ', st.lastF, st.lastB⟩,
      by simp [iterNextBack, h2], ?_⟩
    exact ⟨d.hf, by simpa using h1, d.hlf, d.hlb, d.hfd,
      Or.inr ⟨hpf.1, by omega⟩, by omega, d.hpfl⟩

/-- From a dead state every later call, in either direction, returns `None`. -/
theorem allDead [LinearOrder K] {full : List (K × V)}
    (hs : (full.map Prod.fst).Sorted (· < ·)) :
    ∀ (ds : List Dir) {i j pf pb : Nat} {st : IterSt K V},
      DeadISt full i j pf pb st → ∀ o ∈ (runIter st ds).1, o = none := by
  intro ds
  induction ds with
  | nil =>
    intro i j pf pb st d o ho
    simp [runIter_nil] at ho
  | cons dd ds ih =>
    intro i j pf pb st d o ho
    cases dd with
    | f =>
      obtain ⟨i', st', he, d'⟩ := dead_next hs d
      rw [runIter_cons_f] at ho
      rw [he] at ho
      simp only [List.mem_cons] at ho
      rcases ho with rfl | ho
      · rfl
      · exact ih d' o ho
    | b =>
      obtain ⟨j', st', he, d'⟩ := dead_back hs d
      rw [runIter_cons_b] at ho
      rw [he] at ho
      simp only [List.mem_cons] at ho
      rcases ho with rfl | ho
      · rfl
      · exact ih d' o ho

theorem runIter_length [LinearOrder K] (ds : List Dir) :
    ∀ st : IterSt K V, (runIter st ds).1.length = ds.length := by
  induction ds with
  | nil => intro st; rfl
  | cons dd ds ih =>
    intro st
    cases dd with
    | f => rw [runIter_cons_f]; simp [ih]
    | b => rw [runIter_cons_b]; simp [ih]

/-- The results list is a block of yields followed by a block of `None`s:
once one call has returned `None`, every later call does. -/
def SomesThenNones {A : Type} (rs : List (Option A)) : Prop :=
  ∃ p q, rs = p ++ q ∧ (∀ x ∈ p, x ≠ none) ∧ (∀ x ∈ q, x = none)

theorem somesThenNones_nil {A : Type} : SomesThenNones ([] : List (Option A)) :=
  ⟨[], [], rfl, by simp, by simp⟩

/-- Index characterisation of the pending segment. -/
theorem mem_seg_iff {full : List (K × V)} {i j : Nat} {kv : K × V} :
    kv ∈ (full.take j).drop i ↔
      ∃ p, i ≤ p ∧ p < j ∧ ∃ hp : p < full.length, full[p] = kv := by
  constructor
  · intro h
    obtain ⟨n, hn, he⟩ := List.mem_iff_getElem.mp h
    have hlen : n < (full.take j).length - i := by simpa using hn
    have htk : (full.take j).length = min j full.length := by simp
    have hin : i + n < min j full.length := by omega
    refine ⟨i + n, by omega, by omega, by omega, ?_⟩
    rw [← he, List.getElem_drop, List.getElem_take]
  · rintro ⟨p, hip, hpj, hp, rfl⟩
    refine List.mem_iff_getElem.mpr ⟨p - i, ?_, ?_⟩
    · simp
      omega
    · rw [List.getElem_drop, List.getElem_take]
      congr 1
      omega

end Octads

namespace Octads

variable {K V : Type}

theorem filterMap_id_eq_nil {A : Type} {rs : List (Option A)}
    (h : ∀ o ∈ rs, o = none) : rs.filterMap id = [] := by
  rw [List.filterMap_eq_nil_iff]
  intro a ha
  simpa using h a ha

/-- Master invariant run: from a live state, any call sequence produces a
block of yields followed by `None`s, every yield comes from the pending
segment `[i, j)`, and no key is yielded twice. -/
theorem run_phase1 [LinearOrder K] {full : List (K × V)}
    (hs : (full.map Prod.fst).Sorted (· < ·)) :
    ∀ (ds : List Dir) (i j : Nat) (st : IterSt K V), Inv1 full i j st →
      SomesThenNones (runIter st ds).1 ∧
      (∀ kv ∈ (runIter st ds).1.filterMap id, kv ∈ (full.take j).drop i) ∧
      (((runIter st ds).1.filterMap id).map Prod.fst).Nodup := by
  intro ds
  induction ds with
  | nil =>
    intro i j st h
    refine ⟨somesThenNones_nil, ?_, ?_⟩ <;> simp [runIter_nil]
  | cons dd ds ih =>
    intro i j st h
    rcases lt_or_eq_of_le h.hij with hlt | heq
    · cases dd with
      | f =>
        have hi : i < full.length := lt_of_lt_of_le hlt h.hj
        obtain ⟨st', he, h'⟩ := phase1_next_yield hs h hlt
        obtain ⟨hstn, hsub, hnd⟩ := ih (i + 1) j st' h'
        rw [List.getElem?_eq_getElem hi] at he
        simp only [runIter_cons_f, he]
        refine ⟨?_, ?_, ?_⟩
        · obtain ⟨p, q, hpq, hp, hq⟩ := hstn
          refine ⟨some full[i] :: p, q, by rw [hpq, List.cons_append], ?_, hq⟩
          intro x hx
          rcases List.mem_cons.mp hx with rfl | hx
          · simp
          · exact hp x hx
        · intro kv hkv
          simp only [List.filterMap_cons, id_eq, List.mem_cons] at hkv
          rcases hkv with rfl | hkv
          · exact mem_seg_iff.mpr ⟨i, le_refl i, hlt, hi, rfl⟩
          · obtain ⟨p, hip, hpj, hp, he2⟩ := mem_seg_iff.mp (hsub kv hkv)
            exact mem_seg_iff.mpr ⟨p, by omega, hpj, hp, he2⟩
        · simp only [List.filterMap_cons, id_eq, List.map_cons, List.nodup_cons]
          refine ⟨?_, hnd⟩
          intro hmem
          obtain ⟨kv, hkv, hfstkv⟩ := List.mem_map.mp hmem
          obtain ⟨p, hip, hpj, hp, he2⟩ := mem_seg_iff.mp (hsub kv hkv)
          have hlt2 : (full[i]).1 < kv.1 := by
            have := sorted_key_lt hs hi hp (by omega)
            rw [he2] at this
            exact this
          rw [hfstkv] at hlt2
          exact lt_irrefl _ hlt2
      | b =>
        have hj1 : j - 1 < full.length := by
          have := h.hj
          omega
        obtain ⟨st', he, h'⟩ := phase1_back_yield hs h hlt
        obtain ⟨hstn, hsub, hnd⟩ := ih i (j - 1) st' h'
        rw [List.getElem?_eq_getElem hj1] at he
        simp only [runIter_cons_b, he]
        refine ⟨?_, ?_, ?_⟩
        · obtain ⟨p, q, hpq, hp, hq⟩ := hstn
          refine ⟨some (full[j - 1]) :: p, q, by rw [hpq, List.cons_append], ?_, hq⟩
          intro x hx
          rcases List.mem_cons.mp hx with rfl | hx
          · simp
          · exact hp x hx
        · intro kv hkv
          simp only [List.filterMap_cons, id_eq, List.mem_cons] at hkv
          rcases hkv with rfl | hkv
          · exact mem_seg_iff.mpr ⟨j - 1, by omega, by omega, hj1, rfl⟩
          · obtain ⟨p, hip, hpj, hp, he2⟩ := mem_seg_iff.mp (hsub kv hkv)
            exact mem_seg_iff.mpr ⟨p, hip, by omega, hp, he2⟩
        · simp only [List.filterMap_cons, id_eq, List.map_cons, List.nodup_cons]
          refine ⟨?_, hnd⟩
          intro hmem
          obtain ⟨kv, hkv, hfstkv⟩ := List.mem_map.mp hmem
          obtain ⟨p, hip, hpj, hp, he2⟩ := mem_seg_iff.mp (hsub kv hkv)
          have hlt2 : kv.1 < (full[j - 1]).1 := by
            have := sorted_key_lt hs hp hj1 (by omega)
            rw [he2] at this
            exact this
          rw [hfstkv] at hlt2
          exact lt_irrefl _ hlt2
    · cases dd with
      | f =>
        obtain ⟨i', st', he, d'⟩ := phase1_next_dead h heq
        have hrest := allDead hs ds d'
        simp only [runIter_cons_f, he]
        refine ⟨⟨[], none :: (runIter st' ds).1, rfl, by simp, ?_⟩, ?_, ?_⟩
        · intro x hx
          rcases List.mem_cons.mp hx with rfl | hx
          · rfl
          · exact hrest x hx
        · intro kv hkv
          simp only [List.filterMap_cons, id_eq] at hkv
          rw [filterMap_id_eq_nil hrest] at hkv
          cases hkv
        · simp only [List.filterMap_cons, id_eq]
          rw [filterMap_id_eq_nil hrest]
          simp
      | b =>
        obtain ⟨j', st', he, d'⟩ := phase1_back_dead h heq
        have hrest := allDead hs ds d'
        simp only [runIter_cons_b, he]
        refine ⟨⟨[], none :: (runIter st' ds).1, rfl, by simp, ?_⟩, ?_, ?_⟩
        · intro x hx
          rcases List.mem_cons.mp hx with rfl | hx
          · rfl
          · exact hrest x hx
        · intro kv hkv
          simp only [List.filterMap_cons, id_eq] at hkv
          rw [filterMap_id_eq_nil hrest] at hkv
          cases hkv
        · simp only [List.filterMap_cons, id_eq]
          rw [filterMap_id_eq_nil hrest]
          simp

end Octads

namespace Octads

variable {K V : Type}

/-- The order invariant makes the leaf keys strictly ascending. -/
theorem sorted_leafKeys_of_inv [LinearOrder K] :
    ∀ s : STree K V, Inv s → (leafKeys s).Sorted (· < ·) := by
  intro s
  induction s with
  | lf k v =>
    intro _
    simp [leafKeys_lf]
  | nd key l r ihl ihr =>
    intro h
    obtain ⟨hl, hr, hil, hir⟩ := h
    rw [leafKeys_nd]
    exact List.pairwise_append.mpr
      ⟨ihl hil, ihr hir, fun x hx y hy => lt_of_lt_of_le (hl x hx) (hr y hy)⟩

theorem sorted_entries [LinearOrder K] (t : SearchTree K V) (h : t.Wf) :
    (t.entries.map Prod.fst).Sorted (· < ·) := by
  obtain ⟨root, len⟩ := t
  cases root with
  | none => simp [SearchTree.entries]
  | some s =>
    have hInv : Inv s := by simpa [SearchTree.Wf] using h
    have := sorted_leafKeys_of_inv s hInv
    simpa [SearchTree.entries, leafKeys] using this

/-- A fresh `iter()` is a live state with the whole entry list pending. -/
theorem iterA_inv1 [LinearOrder K] (t : SearchTree K V) :
    Inv1 t.entries 0 t.entries.length t.iterA := by
  obtain ⟨root, len⟩ := t
  cases root with
  | none => exact ⟨le_refl 0, le_refl 0, rfl, rfl, rfl, rfl⟩
  | some s =>
    refine ⟨by omega, le_refl _, ?_, ?_, rfl, ?_⟩
    · simp [SearchTree.iterA, SearchTree.entries, flattenF_cons, flattenF_nil]
    · simp [SearchTree.iterA, SearchTree.entries, flattenB_cons, flattenB_nil,
        List.take_length]
    · show (none : Option K) = _
      rw [List.getElem?_eq_none le_rfl]
      rfl

/-- C4: for any finite sequence of `next`/`next_back` calls on one `iter()`
of a well-formed tree, the results are a block of yields followed only by
`None`s (fused: once either direction returns `None`, every later call in
either direction does), every yielded entry is a stored entry, and no key is
yielded twice across both ends. -/
theorem c4_interleaved_iter [LinearOrder K] (t : SearchTree K V) (h : t.Wf)
    (ds : List Dir) :
    SomesThenNones (runIter t.iterA ds).1 ∧
    (∀ kv ∈ (runIter t.iterA ds).1.filterMap id, kv ∈ t.entries) ∧
    (((runIter t.iterA ds).1.filterMap id).map Prod.fst).Nodup := by
  have hs := sorted_entries t h
  obtain ⟨a, b, c⟩ := run_phase1 hs ds 0 t.entries.length t.iterA (iterA_inv1 t)
  refine ⟨a, ?_, c⟩
  intro kv hkv
  have := b kv hkv
  simpa [List.take_length] using this

/-- Witness for C4 on the one-entry tree with calls
`next; next_back; next`. -/
theorem c4_witness_check :
    SomesThenNones
        (runIter (SearchTree.mk (some (.lf 1 10)) 1 : SearchTree Nat Nat).iterA
          [Dir.f, Dir.b, Dir.f]).1 ∧
    (∀ kv ∈ (runIter
          (SearchTree.mk (some (.lf 1 10)) 1 : SearchTree Nat Nat).iterA
          [Dir.f, Dir.b, Dir.f]).1.filterMap id,
        kv ∈ (SearchTree.mk (some (.lf 1 10)) 1 : SearchTree Nat Nat).entries) ∧
    (((runIter (SearchTree.mk (some (.lf 1 10)) 1 : SearchTree Nat Nat).iterA
          [Dir.f, Dir.b, Dir.f]).1.filterMap id).map Prod.fst).Nodup :=
  c4_interleaved_iter (SearchTree.mk (some (.lf 1 10)) 1) trivial
    [Dir.f, Dir.b, Dir.f]

/-- A forward-only drive of `m` calls: the pending entries in order, then
`None`s. -/
theorem runF_replicate [LinearOrder K] {full : List (K × V)}
    (hs : (full.map Prod.fst).Sorted (· < ·)) :
    ∀ (m i : Nat) (st : IterSt K V), Inv1 full i full.length st →
      (runIter st (List.replicate m .f)).1
        = ((full.drop i).map some).take m
            ++ List.replicate (m - (full.length - i)) none := by
  intro m
  induction m with
  | zero =>
    intro i st h
    simp [runIter_nil]
  | succ m ih =>
    intro i st h
    rcases lt_or_eq_of_le h.hij with hlt | heq
    · obtain ⟨st', he, h'⟩ := phase1_next_yield hs h hlt
      rw [List.getElem?_eq_getElem hlt] at he
      rw [List.replicate_succ, runIter_cons_f, he]
      simp only
      rw [ih (i + 1) st' h']
      have hc : m - (full.length - (i + 1)) = m + 1 - (full.length - i) := by
        omega
      rw [List.drop_eq_getElem_cons hlt, List.map_cons, List.take_succ_cons,
        hc, List.cons_append]
    · obtain ⟨i', st', he, d'⟩ := phase1_next_dead h heq
      have hrest := allDead hs (List.replicate m .f) d'
      rw [List.replicate_succ, runIter_cons_f, he]
      simp only
      have hlen : (runIter st' (List.replicate m .f)).1.length = m := by
        rw [runIter_length]
        simp
      have hrep : (runIter st' (List.replicate m .f)).1
          = List.replicate m none :=
        List.eq_replicate_iff.mpr ⟨hlen, hrest⟩
      rw [hrep]
      subst heq
      simp [List.drop_length, List.replicate_succ]

/-- A backward-only drive of `m` calls: the pending entries in reverse order,
then `None`s. -/
theorem runB_replicate [LinearOrder K] {full : List (K × V)}
    (hs : (full.map Prod.fst).Sorted (· < ·)) :
    ∀ (m j : Nat) (st : IterSt K V), Inv1 full 0 j st →
      (runIter st (List.replicate m .b)).1
        = ((full.take j).reverse.map some).take m
            ++ List.replicate (m - j) none := by
  intro m
  induction m with
  | zero =>
    intro j st h
    simp [runIter_nil]
  | succ m ih =>
    intro j st h
    rcases lt_or_eq_of_le h.hij with hlt | heq
    · have hj1 : j - 1 < full.length := by
        have := h.hj
        omega
      obtain ⟨st', he, h'⟩ := phase1_back_yield hs h hlt
      rw [List.getElem?_eq_getElem hj1] at he
      rw [List.replicate_succ, runIter_cons_b, he]
      simp only
      rw [ih (j - 1) st' h']
      have hc : m - (j - 1) = m + 1 - j := by
        omega
      rw [takerev_decomp (by omega) hj1, List.map_cons, List.take_succ_cons,
        hc, List.cons_append]
    · obtain ⟨j', st', he, d'⟩ := phase1_back_dead h heq
      have hrest := allDead hs (List.replicate m .b) d'
      rw [List.replicate_succ, runIter_cons_b, he]
      simp only
      have hlen : (runIter st' (List.replicate m .b)).1.length = m := by
        rw [runIter_length]
        simp
      have hrep : (runIter st' (List.replicate m .b)).1
          = List.replicate m none :=
        List.eq_replicate_iff.mpr ⟨hlen, hrest⟩
      rw [hrep]
      rw [← heq]
      simp [List.replicate_succ]

/-- C6: driving `iter()` only forward yields exactly the stored entries in
strictly ascending key order (then `None`s); driving only backward yields
them in strictly descending order; each stored entry is yielded exactly
once. -/
theorem c6_iter_order [LinearOrder K] (t : SearchTree K V) (h : t.Wf)
    (m : Nat) :
    (runIter t.iterA (List.replicate m .f)).1
      = (t.entries.map some).take m
          ++ List.replicate (m - t.entries.length) none ∧
    (runIter t.iterA (List.replicate m .b)).1
      = (t.entries.reverse.map some).take m
          ++ List.replicate (m - t.entries.length) none ∧
    (t.entries.map Prod.fst).Sorted (· < ·) ∧
    (t.entries.map Prod.fst).Nodup := by
  have hs := sorted_entries t h
  have h0 := iterA_inv1 t
  refine ⟨?_, ?_, hs, List.Pairwise.imp (fun hlt => ne_of_lt hlt) hs⟩
  · have := runF_replicate hs m 0 t.iterA h0
    simpa using this
  · have := runB_replicate hs m t.entries.length t.iterA h0
    simpa [List.take_length] using this

/-- Witness for C6 on the one-entry tree, two calls each way. -/
theorem c6_witness_check :
    (runIter (SearchTree.mk (some (.lf 1 10)) 1 : SearchTree Nat Nat).iterA
        (List.replicate 2 .f)).1
      = ((SearchTree.mk (some (.lf 1 10)) 1 :
            SearchTree Nat Nat).entries.map some).take 2
          ++ List.replicate
              (2 - (SearchTree.mk (some (.lf 1 10)) 1 :
                SearchTree Nat Nat).entries.length) none ∧
    (runIter (SearchTree.mk (some (.lf 1 10)) 1 : SearchTree Nat Nat).iterA
        (List.replicate 2 .b)).1
      = ((SearchTree.mk (some (.lf 1 10)) 1 :
            SearchTree Nat Nat).entries.reverse.map some).take 2
          ++ List.replicate
              (2 - (SearchTree.mk (some (.lf 1 10)) 1 :
                SearchTree Nat Nat).entries.length) none ∧
    ((SearchTree.mk (some (.lf 1 10)) 1 :
        SearchTree Nat Nat).entries.map Prod.fst).Sorted (· < ·) ∧
    ((SearchTree.mk (some (.lf 1 10)) 1 :
        SearchTree Nat Nat).entries.map Prod.fst).Nodup :=
  c6_iter_order (SearchTree.mk (some (.lf 1 10)) 1) trivial 2

end Octads

namespace Octads

variable {K V : Type}

/-! ## Range iterator `find` (claim C2) -/

/-- A node pointer on a `find` traversal stack: either the dedicated root
node in its EMPTY state (key uninitialised, both children null) or a
non-empty subtree. -/
inductive FNode (K V : Type) where
  | root0
  | sub (s : STree K V)
deriving Repr, DecidableEq

/-- Abort/undefined-behaviour outcome of `SearchTreeFind::next`. -/
inductive FindUB where
  | uninitKey
deriving Repr, DecidableEq

/-- The `SearchTreeFind` iterator state. -/
structure FindSt (K V : Type) where
  fwd : List (FNode K V)
  bwd : List (FNode K V)
  lastF : Option K
  lastB : Option K
  lo : K
  hi : K

/-- `SearchTree::find` (search_tree.rs:176-192): both stacks are seeded with
the root node unconditionally — unlike `iter` (search_tree.rs:197), there is
no `is_empty` guard. -/
def SearchTree.findA (t : SearchTree K V) (lo hi : K) : FindSt K V :=
  match t.root with
  | none => ⟨[.root0], [.root0], none, none, lo, hi⟩
  | some s => ⟨[.sub s], [.sub s], none, none, lo, hi⟩

def fnSize : FNode K V → Nat
  | .root0 => 1
  | .sub s => stSize s

def fstackSize (σ : List (FNode K V)) : Nat := (σ.map fnSize).sum

/-- The loop of `SearchTreeFind::next` (search_tree.rs:426-454): pop a node
and first read its key with `assume_init_ref` (line 430).  On the empty root
this reads an uninitialised `MaybeUninit<K>` — undefined behaviour, modelled
as an error (moreover, whatever garbage the read produced, the branch taken
next either calls `TreePtr::as_node` on `TreePtr::Null`, which panics, or
pushes the null `right` pointer, which the next loop iteration dereferences).
On a leaf inside `[lo, hi)` apply the frontier check and yield; on a leaf
outside the range fall through and continue; on an internal node prune by
comparing the range with the routing key. -/
def findStepF [LinearOrder K] (lo hi : K) (lastB : Option K) :
    List (FNode K V) → Except FindUB (Option (K × V) × List (FNode K V))
  | [] => .ok (none, [])
  | .root0 :: _ => .error .uninitKey
  | .sub (.lf k v) :: rest =>
    if lo ≤ k ∧ k < hi then
      match lastB with
      | some bk =>
        if bk ≤ k then .ok (none, rest) else .ok (some (k, v), rest)
      | none => .ok (some (k, v), rest)
    else findStepF lo hi lastB rest
  | .sub (.nd key l r) :: rest =>
    if hi ≤ key then findStepF lo hi lastB (.sub l :: rest)
    else if key ≤ lo then findStepF lo hi lastB (.sub r :: rest)
    else findStepF lo hi lastB (.sub l :: .sub r :: rest)
termination_by σ => fstackSize σ
decreasing_by
  all_goals simp only [fstackSize, List.map_cons, List.sum_cons, fnSize, stSize]
  all_goals omega

/-- One `next` call on the range iterator. -/
def findNext [LinearOrder K] (st : FindSt K V) :
    Except FindUB (Option (K × V) × FindSt K V) :=
  match findStepF st.lo st.hi st.lastB st.fwd with
  | .error e => .error e
  | .ok (some kv, σ') => .ok (some kv, { st with fwd := σ', lastF := some kv.1 })
  | .ok (none, σ') => .ok (none, { st with fwd := σ' })

theorem findStepF_root0 [LinearOrder K] (lo hi : K) (lastB : Option K)
    (rest : List (FNode K V)) :
    findStepF lo hi lastB (.root0 :: rest) = .error .uninitKey := by
  rw [findStepF.eq_def]

/-- C2: the claim covers the empty tree, but driving `find(0..1)` forward on
the empty tree is undefined behaviour instead of an empty iteration: `find`
seeds its stacks with the root without the `is_empty` guard that `iter` has,
and the first `next` pops the empty root and reads its uninitialised key. -/
theorem c2_find_empty_aborts :
    findNext ((SearchTree.empty (K := Int) (V := Int)).findA 0 1)
      = .error .uninitKey := by
  show findNext (⟨[.root0], [.root0], none, none, 0, 1⟩ : FindSt Int Int)
      = .error .uninitKey
  rw [findNext]
  rw [findStepF_root0]

end Octads


namespace Octads

/-! ## Block allocator (claim C8)

Node addresses are modelled as `(block index, offset)` pairs; blocks are
never moved or freed before teardown, so distinct pairs are distinct
addresses.  `live` is the ghost list of addresses handed out and not yet
returned. -/

structure AllocSt where
  freeList : List (Nat × Nat)
  blocksLen : Nat
  sizeLeft : Nat
  blockSize : Nat
  live : List (Nat × Nat)
deriving Repr, DecidableEq

/-- `BlockAllocator::new` (allocator.rs:40-59): no blocks yet, null cursor,
empty free list (`block_size > 0` is asserted). -/
def allocNew (blockSize : Nat) : AllocSt := ⟨[], 0, 0, blockSize, []⟩

/-- `BlockAllocator::get_node` (allocator.rs:61-100): pop the free list if
non-empty; otherwise, if there is no block yet or the current block is
exhausted, allocate a fresh block (possibly doubling the block directory,
which relocates only the directory, never a block) and cut the next record
off the current block. -/
def getNode (s : AllocSt) : (Nat × Nat) × AllocSt :=
  match s.freeList with
  | a :: rest => (a, { s with freeList := rest, live := a :: s.live })
  | [] =>
    let s1 := if s.sizeLeft = 0
      then { s with blocksLen := s.blocksLen + 1, sizeLeft := s.blockSize }
      else s
    let a := (s1.blocksLen - 1, s1.blockSize - s1.sizeLeft)
    (a, { s1 with sizeLeft := s1.sizeLeft - 1, live := a :: s1.live })

/-- `BlockAllocator::return_node` (allocator.rs:105-108): push the node on
the free list. -/
def returnNode (s : AllocSt) (a : Nat × Nat) : AllocSt :=
  { s with freeList := a :: s.freeList, live := s.live.erase a }

/-- An address that can have been handed out in state `s`: inside an existing
block, and below the cursor if in the current (most recent) block. -/
def AddrOk (s : AllocSt) (x : Nat × Nat) : Prop :=
  x.2 < s.blockSize ∧ x.1 + 1 ≤ s.blocksLen ∧
    (x.1 + 1 = s.blocksLen → x.2 < s.blockSize - s.sizeLeft)

/-- Allocator state invariant. -/
structure AInv (s : AllocSt) : Prop where
  hbs : 1 ≤ s.blockSize
  hsz : s.sizeLeft ≤ s.blockSize
  hz : s.blocksLen = 0 → s.sizeLeft = 0
  hok : ∀ x ∈ s.freeList ++ s.live, AddrOk s x
  hnd : (s.freeList ++ s.live).Nodup

theorem ainv_new (bs : Nat) (h : 1 ≤ bs) : AInv (allocNew bs) := by
  refine ⟨h, by simp [allocNew], fun _ => rfl, ?_, ?_⟩ <;> simp [allocNew]

/-- `get_node` hands out an address that is not currently live, and records
it. -/
theorem getNode_spec (s : AllocSt) (hI : AInv s) :
    (getNode s).1 ∉ s.live ∧ (getNode s).2.live = (getNode s).1 :: s.live ∧
      AInv (getNode s).2 := by
  obtain ⟨hbs, hsz, hz, hok, hnd⟩ := hI
  cases hfl : s.freeList with
  | cons a rest =>
    have hnda : a ∉ rest ++ s.live ∧ (rest ++ s.live).Nodup := by
      have h1 : ((a :: rest) ++ s.live).Nodup := hfl ▸ hnd
      rw [List.cons_append, List.nodup_cons] at h1
      exact h1
    have hfresh : (getNode s).1 = a := by
      simp [getNode, hfl]
    have hst : (getNode s).2 =
        ⟨rest, s.blocksLen, s.sizeLeft, s.blockSize, a :: s.live⟩ := by
      simp [getNode, hfl]
    rw [hfresh, hst]
    refine ⟨fun hm => hnda.1 (List.mem_append_right _ hm), rfl, ?_⟩
    refine ⟨hbs, hsz, hz, ?_, ?_⟩
    · intro x hx
      simp only [AddrOk]
      have : AddrOk s x := by
        apply hok
        rw [hfl]
        simp only [List.mem_append, List.mem_cons] at hx ⊢
        tauto
      simpa [AddrOk] using this
    · show (rest ++ a :: s.live).Nodup
      have hperm : (rest ++ a :: s.live).Perm (a :: (rest ++ s.live)) :=
        List.perm_middle
      rw [hperm.nodup_iff, List.nodup_cons]
      exact hnda
  | nil =>
    have hlive : ∀ x ∈ s.live, AddrOk s x := fun x hx =>
      hok x (by rw [hfl]; simpa using hx)
    have hndl : s.live.Nodup := by
      have h1 := hfl ▸ hnd
      simpa using h1
    by_cases h0 : s.sizeLeft = 0
    · have hfresh : (getNode s).1 = (s.blocksLen, 0) := by
        simp [getNode, hfl, h0]
      have hst : (getNode s).2 =
          ⟨[], s.blocksLen + 1, s.blockSize - 1, s.blockSize,
            (s.blocksLen, 0) :: s.live⟩ := by
        simp [getNode, hfl, h0]
      have hnotin : (s.blocksLen, 0) ∉ s.live := by
        intro hmem
        obtain ⟨ha, hb, hc⟩ := hlive _ hmem
        simp only at hb
        omega
      rw [hfresh, hst]
      refine ⟨hnotin, rfl, ?_⟩
      refine ⟨hbs, ?_, ?_, ?_, ?_⟩
      · show s.blockSize - 1 ≤ s.blockSize
        omega
      · intro he
        have he2 : s.blocksLen + 1 = 0 := he
        omega
      · intro x hx
        simp only [List.nil_append, List.mem_cons] at hx
        rcases hx with rfl | hx
        · refine ⟨?_, ?_, fun he => ?_⟩
          · show 0 < s.blockSize
            omega
          · show s.blocksLen + 1 ≤ s.blocksLen + 1
            omega
          · show 0 < s.blockSize - (s.blockSize - 1)
            omega
        · obtain ⟨ha, hb, hc⟩ := hlive x hx
          refine ⟨ha, ?_, fun he => ?_⟩
          · show x.1 + 1 ≤ s.blocksLen + 1
            omega
          · have he2 : x.1 + 1 = s.blocksLen + 1 := he
            show x.2 < s.blockSize - (s.blockSize - 1)
            omega
      · show ((s.blocksLen, 0) :: s.live).Nodup
        rw [List.nodup_cons]
        exact ⟨hnotin, hndl⟩
    · have hbl : 1 ≤ s.blocksLen := by
        rcases Nat.eq_zero_or_pos s.blocksLen with hb0 | hb0
        · exact absurd (hz hb0) h0
        · exact hb0
      have hfresh : (getNode s).1
          = (s.blocksLen - 1, s.blockSize - s.sizeLeft) := by
        simp [getNode, hfl, h0]
      have hst : (getNode s).2 =
          ⟨[], s.blocksLen, s.sizeLeft - 1, s.blockSize,
            (s.blocksLen - 1, s.blockSize - s.sizeLeft) :: s.live⟩ := by
        simp [getNode, hfl, h0]
      have hsl : 1 ≤ s.sizeLeft := by omega
      have hnotin : (s.blocksLen - 1, s.blockSize - s.sizeLeft) ∉ s.live := by
        intro hmem
        obtain ⟨ha, hb, hc⟩ := hlive _ hmem
        simp only at ha hb hc
        have := hc (by omega)
        omega
      rw [hfresh, hst]
      refine ⟨hnotin, rfl, ?_⟩
      refine ⟨hbs, ?_, ?_, ?_, ?_⟩
      · show s.sizeLeft - 1 ≤ s.blockSize
        omega
      · intro he
        have he2 : s.blocksLen = 0 := he
        omega
      · intro x hx
        simp only [List.nil_append, List.mem_cons] at hx
        rcases hx with rfl | hx
        · refine ⟨?_, ?_, fun he => ?_⟩
          · show s.blockSize - s.sizeLeft < s.blockSize
            omega
          · show (s.blocksLen - 1) + 1 ≤ s.blocksLen
            omega
          · show s.blockSize - s.sizeLeft < s.blockSize - (s.sizeLeft - 1)
            omega
        · obtain ⟨ha, hb, hc⟩ := hlive x hx
          refine ⟨ha, ?_, fun he => ?_⟩
          · show x.1 + 1 ≤ s.blocksLen
            omega
          · have he2 : x.1 + 1 = s.blocksLen := he
            have := hc he2
            show x.2 < s.blockSize - (s.sizeLeft - 1)
            omega
      · show ((s.blocksLen - 1, s.blockSize - s.sizeLeft) :: s.live).Nodup
        rw [List.nodup_cons]
        exact ⟨hnotin, hndl⟩

/-- `return_node` of a live address keeps the invariant and removes the
address from the live set. -/
theorem returnNode_spec (s : AllocSt) (a : Nat × Nat) (hI : AInv s)
    (ha : a ∈ s.live) :
    AInv (returnNode s a) ∧ (returnNode s a).live = s.live.erase a := by
  obtain ⟨hbs, hsz, hz, hok, hnd⟩ := hI
  obtain ⟨hndf, hndl, hdisj⟩ := List.nodup_append.mp hnd
  refine ⟨⟨hbs, hsz, hz, ?_, ?_⟩, rfl⟩
  · intro x hx
    simp only [returnNode, List.cons_append, List.mem_cons,
      List.mem_append] at hx
    have hmem : x ∈ s.freeList ++ s.live := by
      rcases hx with rfl | hx | hx
      · exact List.mem_append_right _ ha
      · exact List.mem_append_left _ hx
      · exact List.mem_append_right _ (List.erase_subset _ _ hx)
    simpa [AddrOk, returnNode] using hok x hmem
  · show (a :: s.freeList ++ s.live.erase a).Nodup
    rw [List.cons_append, List.nodup_cons, List.nodup_append]
    refine ⟨?_, hndf, hndl.erase a, ?_⟩
    · intro hmem
      rcases List.mem_append.mp hmem with hmem | hmem
      · exact hdisj hmem ha
      · exact hndl.not_mem_erase hmem
    · intro x hx hmem
      exact hdisj hx (List.erase_subset _ _ hmem)

end Octads

namespace Octads

/-- One allocator call. -/
inductive AOp where
  | get
  | ret (a : Nat × Nat)
deriving Repr, DecidableEq

/-- Run a sequence of allocator calls.  A `return_node` of an address that is
not currently live is outside the documented contract and rejected
(`none`). -/
def execA : AllocSt → List AOp → Option AllocSt
  | s, [] => some s
  | s, .get :: ops => execA (getNode s).2 ops
  | s, .ret a :: ops =>
    if a ∈ s.live then execA (returnNode s a) ops else none

theorem execA_inv : ∀ (ops : List AOp) (s s' : AllocSt), AInv s →
    execA s ops = some s' → AInv s' := by
  intro ops
  induction ops with
  | nil =>
    intro s s' hI h
    cases h
    exact hI
  | cons op rest ih =>
    intro s s' hI h
    cases op with
    | get => exact ih _ _ (getNode_spec s hI).2.2 h
    | ret a =>
      rw [execA] at h
      by_cases ha : a ∈ s.live
      · rw [if_pos ha] at h
        exact ih _ _ (returnNode_spec s a hI ha).1 h
      · rw [if_neg ha] at h
        cases h

/-- A live address stays live across any run that never returns it. -/
theorem execA_live : ∀ (ops : List AOp) (s s' : AllocSt) (a : Nat × Nat),
    AInv s → execA s ops = some s' → a ∈ s.live → AOp.ret a ∉ ops →
    a ∈ s'.live := by
  intro ops
  induction ops with
  | nil =>
    intro s s' a hI h ha hnr
    cases h
    exact ha
  | cons op rest ih =>
    intro s s' a hI h ha hnr
    cases op with
    | get =>
      refine ih _ _ a (getNode_spec s hI).2.2 h ?_ (fun hm => hnr (by simp [hm]))
      rw [(getNode_spec s hI).2.1]
      exact List.mem_cons_of_mem _ ha
    | ret b =>
      have hab : a ≠ b := by
        intro he
        exact hnr (by simp [he])
      rw [execA] at h
      by_cases hb : b ∈ s.live
      · rw [if_pos hb] at h
        refine ih _ _ a (returnNode_spec s b hI hb).1 h ?_
          (fun hm => hnr (by simp [hm]))
        rw [(returnNode_spec s b hI hb).2]
        exact (List.mem_erase_of_ne hab).mpr ha
      · rw [if_neg hb] at h
        cases h

/-- C8: for any program-order sequence of `get_node`/`return_node` calls in
which every return is of a currently live address, a `get_node` whose result
is not returned in between never reappears as the result of a later
`get_node`: the pool never hands out the same address twice without an
intervening return. -/
theorem c8_pool_no_alias (bs : Nat) (hbs : 1 ≤ bs) (pre mid : List AOp)
    (s0 s2 : AllocSt)
    (h0 : execA (allocNew bs) pre = some s0)
    (h2 : execA (getNode s0).2 mid = some s2)
    (hnr : AOp.ret (getNode s0).1 ∉ mid) :
    (getNode s2).1 ≠ (getNode s0).1 := by
  have hI0 : AInv s0 := execA_inv pre (allocNew bs) s0 (ainv_new bs hbs) h0
  obtain ⟨hfresh0, hlive0, hI1⟩ := getNode_spec s0 hI0
  have hlive2 : (getNode s0).1 ∈ s2.live := by
    refine execA_live mid _ s2 (getNode s0).1 hI1 h2 ?_ hnr
    rw [hlive0]
    exact List.mem_cons_self _ _
  have hI2 : AInv s2 := execA_inv mid _ s2 hI1 h2
  obtain ⟨hfresh2, _, _⟩ := getNode_spec s2 hI2
  intro he
  rw [he] at hfresh2
  exact hfresh2 hlive2

/-- Witness for C8: block size 2, empty prefix, one interleaved `get_node`;
the third address differs from the first. -/
theorem c8_witness_check :
    (getNode ((execA (getNode (allocNew 2)).2 [AOp.get]).getD (allocNew 2))).1
      ≠ (getNode (allocNew 2)).1 := by
  have h := c8_pool_no_alias 2 (by omega) [] [AOp.get] (allocNew 2)
    (getNode (getNode (allocNew 2)).2).2 rfl rfl (by simp)
  simpa using h

end Octads

namespace Octads

variable {K V : Type}

/-! ## Top-down build `from_sorted` (claims C3, C9, C10)

The loop of `from_sorted` (search_tree.rs:215-303) mutates tree nodes through
raw pointers after linking them — a frame's `node2` points at an ancestor
whose routing key is written only when the first leaf of that ancestor's
right subtree is filled — so the machine is modelled with an explicit heap:
addresses are indices into a list of node records and `get_node` appends a
default record (during the build nothing is ever returned, so the allocator's
free list stays empty and every `get_node` cuts a fresh record). -/

/-- The tagged `left` field of a heap `TreeNode`. -/
inductive HElem (K V : Type) where
  | null
  | node (a : Nat)
  | val (v : V)
deriving Repr, DecidableEq

/-- A heap `TreeNode` record; `key = none` models the uninitialised
`MaybeUninit` key, `right = none` the null pointer. -/
structure HNode (K V : Type) where
  key : Option K
  right : Option Nat
  left : HElem K V
deriving Repr, DecidableEq

/-- `TreeNode::default`. -/
def defaultHNode : HNode K V := ⟨none, none, .null⟩

/-- A `TreeBuilder` frame (search_tree.rs:220-224). -/
structure Frame where
  node1 : Nat
  node2 : Option Nat
  number : Nat
deriving Repr, DecidableEq

/-- Abort conditions of `from_sorted`. -/
inductive BErr where
  | ilogZero
  | notSorted
  | stackOverflow
  | itemsExhausted
  | fuel
  | readBack
deriving Repr, DecidableEq

/-- The state of the `from_sorted` loop. -/
structure BState (K V : Type) where
  heap : List (HNode K V)
  stack : List Frame
  items : List (K × V)
  prevKey : Option K
  valid : Bool
  cap : Nat

/-- The adjacent check of the loop: `prev_key < key` (vacuous for the first
leaf). -/
def chk [LinearOrder K] (pk : Option K) (k : K) : Bool :=
  match pk with
  | some p => decide (p < k)
  | none => true

/-- One iteration of the `while !stack.is_empty()` loop
(search_tree.rs:252-291), for a non-empty stack.  `number > 1` expands the
frame: allocate the two children, link them into `node1`, push right then
left (each `BoundedStack::push` asserts there is room — both asserts pass
exactly when `σ.length + 2 ≤ cap`).  Otherwise fill `node1` as a leaf with
the next input item, writing the item's key into `node2` (if any) first, and
fold the adjacent `prev_key >= key` sortedness check into `valid`. -/
def bstep [LinearOrder K] (st : BState K V) : Except BErr (BState K V) :=
  match st.stack with
  | [] => .ok st
  | f :: σ =>
    if 1 < f.number then
      let lAddr := st.heap.length
      let rAddr := st.heap.length + 1
      let heap1 := st.heap ++ [defaultHNode, defaultHNode]
      let heap2 := match heap1[f.node1]? with
        | some nd =>
          heap1.set f.node1 { nd with left := .node lAddr, right := some rAddr }
        | none => heap1
      if σ.length + 2 ≤ st.cap then
        .ok ⟨heap2,
          ⟨lAddr, f.node2, f.number / 2⟩
            :: ⟨rAddr, some f.node1, f.number - f.number / 2⟩ :: σ,
          st.items, st.prevKey, st.valid, st.cap⟩
      else .error .stackOverflow
    else
      match st.items with
      | [] => .error .itemsExhausted
      | (k, v) :: rest =>
        let heap1 := match f.node2 with
          | some a2 =>
            match st.heap[a2]? with
            | some nd => st.heap.set a2 { nd with key := some k }
            | none => st.heap
          | none => st.heap
        let heap2 := heap1.set f.node1 ⟨some k, none, .val v⟩
        .ok ⟨heap2, σ, rest, some k, st.valid && chk st.prevKey k, st.cap⟩

/-- The loop, with fuel (the run is proved to finish within `2n` iterations,
so the fuel never runs out on the calls `fromSorted` makes). -/
def brun [LinearOrder K] : Nat → BState K V → Except BErr (BState K V)
  | _, st@⟨_, [], _, _, _, _⟩ => .ok st
  | 0, _ => .error .fuel
  | fuel + 1, st =>
    match bstep st with
    | .error e => .error e
    | .ok st' => brun fuel st'

/-- Read a built subtree out of the heap (fuel-indexed; any fuel above the
height works). -/
def readTree (h : List (HNode K V)) : Nat → Nat → Option (STree K V)
  | _, 0 => none
  | a, fuel + 1 =>
    match h[a]? with
    | none => none
    | some nd =>
      match nd.right with
      | none =>
        match nd.left, nd.key with
        | .val v, some k => some (.lf k v)
        | _, _ => none
      | some ra =>
        match nd.left, nd.key with
        | .node la, some k =>
          match readTree h la fuel, readTree h ra fuel with
          | some l, some r => some (.nd k l r)
          | _, _ => none
        | _, _ => none

/-- The machine's initial state (search_tree.rs:241-249): one fresh root
node, the seed frame `{root, null, n}`, and a bounded stack of capacity
`n.ilog2() + 1` (the seed push always fits since the capacity is ≥ 1). -/
def fromSortedInit (items : List (K × V)) : BState K V :=
  ⟨[defaultHNode], [⟨0, none, items.length⟩], items, none, true,
    Nat.log2 items.length + 1⟩

/-- `SearchTree::from_sorted` (search_tree.rs:215-303).  On an empty input
`length.ilog2()` panics (`ilogZero`).  Otherwise run the loop; afterwards the
`is_valid` flag decides between returning the tree and the
"iterator keys are not sorted or unique" panic (`notSorted`).  The built
heap is decoded back into the structural tree; `readBack` is unreachable
(proved below for every run that gets this far). -/
def fromSorted [LinearOrder K] (items : List (K × V)) :
    Except BErr (SearchTree K V) :=
  if items.length = 0 then .error .ilogZero
  else
    match brun (2 * items.length) (fromSortedInit items) with
    | .error e => .error e
    | .ok stf =>
      if stf.valid then
        match readTree stf.heap 0 (items.length + 1) with
        | some t => .ok ⟨some t, items.length⟩
        | none => .error .readBack
      else .error .notSorted

/-- The recursive build: `buildL n items` builds the subtree holding the
first `n` items; an internal node's routing key is the first key of its
right half (the `node2` propagation).  This is the recursion that the
stack-machine loop implements; `brun_frame` below proves the
correspondence. -/
def buildL : Nat → List (K × V) → Option (STree K V × List (K × V))
  | n, items =>
    if n ≤ 1 then
      match items with
      | [] => none
      | (k, v) :: rest => some (.lf k v, rest)
    else
      match buildL (n / 2) items with
      | none => none
      | some (l, rest1) =>
        match rest1 with
        | [] => none
        | (k1, v1) :: rest1' =>
          match buildL (n - n / 2) ((k1, v1) :: rest1') with
          | none => none
          | some (r, rest2) => some (.nd k1 l r, rest2)
termination_by n => n
decreasing_by
  · omega
  · omega

/-- The `prev_key`/`is_valid` scan over a key sequence. -/
def scanOK [LinearOrder K] : Option K → Bool → List K → Option K × Bool
  | pk, vd, [] => (pk, vd)
  | pk, vd, k :: ks => scanOK (some k) (vd && chk pk k) ks

/-- Height of a subtree. -/
def stHeight : STree K V → Nat
  | .lf _ _ => 0
  | .nd _ l r => max (stHeight l) (stHeight r) + 1

/-- `SubtreeAtR h lo hi a t`: the heap `h` holds the subtree `t` rooted at
address `a`, with every strict descendant's address in `[lo, hi)`. -/
def SubtreeAtR (h : List (HNode K V)) (lo hi : Nat) : Nat → STree K V → Prop
  | a, .lf k v => h[a]? = some ⟨some k, none, .val v⟩
  | a, .nd k l r => ∃ la ra, lo ≤ la ∧ la < hi ∧ lo ≤ ra ∧ ra < hi ∧
      h[a]? = some ⟨some k, some ra, .node la⟩ ∧
      SubtreeAtR h lo hi la l ∧ SubtreeAtR h lo hi ra r

end Octads

namespace Octads

variable {K V : Type}

theorem brun_empty [LinearOrder K] (fuel : Nat) (hp : List (HNode K V))
    (it : List (K × V)) (pk : Option K) (vd : Bool) (cap : Nat) :
    brun fuel ⟨hp, [], it, pk, vd, cap⟩ = .ok ⟨hp, [], it, pk, vd, cap⟩ := by
  cases fuel <;> rfl

theorem brun_cons [LinearOrder K] (fuel : Nat) (hp : List (HNode K V))
    (f : Frame) (σ : List Frame) (it : List (K × V)) (pk : Option K)
    (vd : Bool) (cap : Nat) :
    brun (fuel + 1) ⟨hp, f :: σ, it, pk, vd, cap⟩ =
      match bstep ⟨hp, f :: σ, it, pk, vd, cap⟩ with
      | .error e => .error e
      | .ok st' => brun fuel st' := rfl

/-- The recursive build consumes exactly `n` items, its leaves are those
items in order, and its height is below `n`. -/
theorem buildL_spec :
    ∀ n, 1 ≤ n → ∀ items : List (K × V), n ≤ items.length →
      ∃ t, buildL n items = some (t, items.drop n) ∧
        toList t = items.take n ∧ stHeight t ≤ n := by
  intro n
  induction n using Nat.strong_induction_on with
  | _ n ih =>
    intro hn items hlen
    by_cases h1 : n ≤ 1
    · have hn1 : n = 1 := by omega
      subst hn1
      cases items with
      | nil => simp at hlen
      | cons x rest =>
        obtain ⟨k, v⟩ := x
        refine ⟨.lf k v, ?_, by simp [toList], by simp [stHeight]⟩
        rw [buildL.eq_def]
        simp
    · have h2 : 2 ≤ n := by omega
      have hnl : 1 ≤ n / 2 := by omega
      have hnr : 1 ≤ n - n / 2 := by omega
      obtain ⟨tl, hbl, htl, hhl⟩ := ih (n / 2) (by omega) hnl items (by omega)
      have hlen1 : n - n / 2 ≤ (items.drop (n / 2)).length := by
        simp
        omega
      cases hd : items.drop (n / 2) with
      | nil =>
        rw [hd] at hlen1
        simp at hlen1
        omega
      | cons x rest1 =>
        obtain ⟨k1, v1⟩ := x
        rw [hd] at hlen1
        obtain ⟨tr, hbr, htr, hhr⟩ :=
          ih (n - n / 2) (by omega) hnr ((k1, v1) :: rest1) hlen1
        refine ⟨.nd k1 tl tr, ?_, ?_, ?_⟩
        · rw [buildL.eq_def]
          simp only [if_neg h1, hbl, hd, hbr]
          have hdd : ((k1, v1) :: rest1).drop (n - n / 2) = items.drop n := by
            rw [← hd, List.drop_drop]
            congr 1
            omega
          rw [hdd]
        · show toList tl ++ toList tr = items.take n
          rw [htl, htr, ← hd, ← List.take_add]
          congr 1
          omega
        · simp only [stHeight]
          omega

end Octads

namespace Octads

variable {K V : Type}

theorem scanOK_append [LinearOrder K] :
    ∀ (xs ys : List K) (pk : Option K) (vd : Bool),
      scanOK pk vd (xs ++ ys)
        = scanOK (scanOK pk vd xs).1 (scanOK pk vd xs).2 ys := by
  intro xs
  induction xs with
  | nil => intro ys pk vd; rfl
  | cons k ks ih =>
    intro ys pk vd
    rw [List.cons_append, scanOK, scanOK, ih]

/-- The ordering condition the `prev_key` scan checks. -/
def ChainFrom [LinearOrder K] : Option K → List K → Prop
  | none, ks => List.Chain' (· < ·) ks
  | some p, ks => List.Chain (· < ·) p ks

instance [LinearOrder K] (pk : Option K) (ks : List K) :
    Decidable (ChainFrom pk ks) := by
  cases pk <;> simp only [ChainFrom] <;> infer_instance

theorem scanOK_snd [LinearOrder K] :
    ∀ (ks : List K) (pk : Option K) (vd : Bool),
      (scanOK pk vd ks).2 = (vd && decide (ChainFrom pk ks)) := by
  intro ks
  induction ks with
  | nil =>
    intro pk vd
    cases pk <;> simp [scanOK, ChainFrom]
  | cons k ks ih =>
    intro pk vd
    rw [scanOK, ih]
    cases pk with
    | none =>
      simp only [chk, Bool.and_true, ChainFrom]
      rfl
    | some p =>
      simp only [chk, ChainFrom, List.chain_cons, Bool.decide_and,
        Bool.and_assoc]

theorem subtreeR_mono {h h' : List (HNode K V)} {lo hi : Nat} :
    ∀ (t : STree K V) (a : Nat),
      (∀ b, b = a ∨ (lo ≤ b ∧ b < hi) → h'[b]? = h[b]?) →
      SubtreeAtR h lo hi a t → SubtreeAtR h' lo hi a t := by
  intro t
  induction t with
  | lf k v =>
    intro a hag hs
    show h'[a]? = _
    rw [hag a (Or.inl rfl)]
    exact hs
  | nd k l r ihl ihr =>
    intro a hag hs
    obtain ⟨la, ra, h1, h2, h3, h4, h5, hsl, hsr⟩ := hs
    refine ⟨la, ra, h1, h2, h3, h4, ?_, ?_, ?_⟩
    · rw [hag a (Or.inl rfl)]
      exact h5
    · refine ihl la ?_ hsl
      intro b hb
      rcases hb with rfl | hb
      · exact hag b (Or.inr ⟨h1, h2⟩)
      · exact hag b (Or.inr hb)
    · refine ihr ra ?_ hsr
      intro b hb
      rcases hb with rfl | hb
      · exact hag b (Or.inr ⟨h3, h4⟩)
      · exact hag b (Or.inr hb)

theorem subtreeR_widen {h : List (HNode K V)} {lo hi lo' hi' : Nat}
    (hlo : lo' ≤ lo) (hhi : hi ≤ hi') :
    ∀ (t : STree K V) (a : Nat),
      SubtreeAtR h lo hi a t → SubtreeAtR h lo' hi' a t := by
  intro t
  induction t with
  | lf k v => intro a hs; exact hs
  | nd k l r ihl ihr =>
    intro a hs
    obtain ⟨la, ra, h1, h2, h3, h4, h5, hsl, hsr⟩ := hs
    exact ⟨la, ra, by omega, by omega, by omega, by omega, h5,
      ihl la hsl, ihr ra hsr⟩

theorem readTree_of_subtreeR {h : List (HNode K V)} {lo hi : Nat} :
    ∀ (t : STree K V) (a fuel : Nat), SubtreeAtR h lo hi a t →
      stHeight t < fuel → readTree h a fuel = some t := by
  intro t
  induction t with
  | lf k v =>
    intro a fuel hs hf
    obtain ⟨fuel', rfl⟩ : ∃ f, fuel = f + 1 := ⟨fuel - 1, by omega⟩
    rw [readTree]
    rw [show h[a]? = some ⟨some k, none, .val v⟩ from hs]
  | nd k l r ihl ihr =>
    intro a fuel hs hf
    obtain ⟨fuel', rfl⟩ : ∃ f, fuel = f + 1 := by
      refine ⟨fuel - 1, ?_⟩
      simp only [stHeight] at hf
      omega
    obtain ⟨la, ra, h1, h2, h3, h4, h5, hsl, hsr⟩ := hs
    simp only [stHeight] at hf
    rw [readTree, h5]
    simp only
    rw [ihl la fuel' hsl (by omega), ihr ra fuel' hsr (by omega)]

end Octads

namespace Octads

variable {K V : Type}

theorem log2_step {n : Nat} (h : 2 ≤ n) :
    Nat.log2 n = Nat.log2 (n / 2) + 1 := by
  rw [Nat.log2]
  simp [h]

theorem log2_one_le {n : Nat} (h : 2 ≤ n) : 1 ≤ Nat.log2 n := by
  rw [Nat.le_log2 (by omega)]
  simpa using h

theorem log2_le_log2 {m n : Nat} (h : m ≤ n) :
    Nat.log2 m ≤ Nat.log2 n := by
  by_cases hm : m = 0
  · subst hm
    rw [Nat.log2]
    simp
  · rw [Nat.le_log2 (by omega)]
    exact le_trans ((Nat.le_log2 hm).mp le_rfl) h

theorem brun_step [LinearOrder K] {fuel : Nat} {st st' : BState K V}
    (h : bstep st = .ok st') (hne : st.stack ≠ []) :
    brun (fuel + 1) st = brun fuel st' := by
  cases st with
  | mk hp stk it pk vd cap =>
    cases stk with
    | nil => exact absurd rfl hne
    | cons f σ => rw [brun_cons, h]

/-- Reduction of `bstep` on a leaf frame (`number ≤ 1`) with no pending
`node2` key write. -/
theorem bstep_leaf_none [LinearOrder K] (hp : List (HNode K V)) (a n : Nat)
    (σ : List Frame) (k : K) (v : V) (rest : List (K × V)) (pk : Option K)
    (vd : Bool) (cap : Nat) (hn : ¬ 1 < n) :
    bstep ⟨hp, ⟨a, none, n⟩ :: σ, (k, v) :: rest, pk, vd, cap⟩ =
      .ok ⟨hp.set a ⟨some k, none, .val v⟩, σ, rest, some k,
        vd && chk pk k, cap⟩ := by
  simp only [bstep, if_neg hn]

/-- Reduction of `bstep` on a leaf frame with a pending `node2` key write. -/
theorem bstep_leaf_some [LinearOrder K] (hp : List (HNode K V)) (a b n : Nat)
    (σ : List Frame) (k : K) (v : V) (rest : List (K × V)) (pk : Option K)
    (vd : Bool) (cap : Nat) (nd : HNode K V) (hn : ¬ 1 < n)
    (hb : hp[b]? = some nd) :
    bstep ⟨hp, ⟨a, some b, n⟩ :: σ, (k, v) :: rest, pk, vd, cap⟩ =
      .ok ⟨(hp.set b { nd with key := some k }).set a ⟨some k, none, .val v⟩,
        σ, rest, some k, vd && chk pk k, cap⟩ := by
  simp only [bstep, if_neg hn, hb]

/-- Reduction of `bstep` on an expansion frame (`number > 1`) when the stack
has room. -/
theorem bstep_expand [LinearOrder K] (hp : List (HNode K V)) (a : Nat)
    (a2 : Option Nat) (n : Nat) (σ : List Frame) (items : List (K × V))
    (pk : Option K) (vd : Bool) (cap : Nat) (nd : HNode K V)
    (h1 : 1 < n) (hnd : hp[a]? = some nd) (hroom : σ.length + 2 ≤ cap) :
    bstep ⟨hp, ⟨a, a2, n⟩ :: σ, items, pk, vd, cap⟩ =
      .ok ⟨(hp ++ [defaultHNode, defaultHNode]).set a
             { nd with left := .node hp.length, right := some (hp.length + 1) },
           ⟨hp.length, a2, n / 2⟩
             :: ⟨hp.length + 1, some a, n - n / 2⟩ :: σ,
           items, pk, vd, cap⟩ := by
  have ha : a < hp.length := by
    by_contra hc
    rw [List.getElem?_eq_none (by omega)] at hnd
    exact Option.noConfusion hnd
  have h2 : (hp ++ [defaultHNode, defaultHNode])[a]? = some nd := by
    rw [List.getElem?_append_left ha]
    exact hnd
  simp only [bstep, if_pos h1, h2, if_pos hroom]

end Octads

namespace Octads

variable {K V : Type}

/-- The stack machine implements the recursive build: processing one frame
`{a, a2, n}` takes exactly `2n - 1` iterations, consumes the first `n`
items, installs `buildL n items` at `a` with every fresh descendant address
at or above the old heap top, writes the first consumed key into `a2`,
leaves every other old address untouched, and threads
`prev_key`/`is_valid` through the scan of the consumed keys. -/
theorem brun_frame [LinearOrder K] :
    ∀ n : Nat, 1 ≤ n →
      ∀ (heap : List (HNode K V)) (σ : List Frame) (items : List (K × V))
        (pk : Option K) (vd : Bool) (cap a : Nat) (a2 : Option Nat)
        (fuel : Nat),
        a < heap.length →
        (∀ b, a2 = some b → b < heap.length ∧ b ≠ a) →
        σ.length + Nat.log2 n + 1 ≤ cap →
        n ≤ items.length →
        ∃ (hR : List (HNode K V)) (t : STree K V),
          brun ((2 * n - 1) + fuel)
              ⟨heap, ⟨a, a2, n⟩ :: σ, items, pk, vd, cap⟩
            = brun fuel ⟨hR, σ, items.drop n,
                (scanOK pk vd ((items.take n).map Prod.fst)).1,
                (scanOK pk vd ((items.take n).map Prod.fst)).2, cap⟩ ∧
          hR.length = heap.length + 2 * (n - 1) ∧
          (∀ b, b < heap.length → b ≠ a → a2 ≠ some b →
            hR[b]? = heap[b]?) ∧
          (∀ b, a2 = some b → ∃ nd0, heap[b]? = some nd0 ∧
            hR[b]? = some ⟨(items.head?).map Prod.fst, nd0.right, nd0.left⟩) ∧
          buildL n items = some (t, items.drop n) ∧
          SubtreeAtR hR heap.length hR.length a t := by
  intro n
  induction n using Nat.strong_induction_on with
  | _ n ih =>
    intro hn heap σ items pk vd cap a a2 fuel ha ha2 hcap hitems
    by_cases h1 : n ≤ 1
    · have hn1 : n = 1 := by omega
      subst hn1
      cases items with
      | nil => simp at hitems
      | cons x rest =>
        obtain ⟨k, v⟩ := x
        have hfa : 2 * 1 - 1 + fuel = fuel + 1 := by omega
        cases a2 with
        | none =>
          refine ⟨heap.set a ⟨some k, none, .val v⟩, .lf k v,
            ?_, by simp, ?_, ?_, ?_, ?_⟩
          · rw [hfa]
            exact brun_step
              (bstep_leaf_none heap a 1 σ k v rest pk vd cap (by omega))
              (by simp)
          · intro b hb hba _
            exact List.getElem?_set_ne hba.symm
          · intro b hb
            simp at hb
          · rw [buildL.eq_def]
            simp
          · show (heap.set a ⟨some k, none, .val v⟩)[a]? = _
            rw [List.getElem?_set_self ha]
        | some b =>
          obtain ⟨hbl, hbne⟩ := ha2 b rfl
          refine ⟨(heap.set b { heap[b] with key := some k }).set a
              ⟨some k, none, .val v⟩, .lf k v, ?_, by simp, ?_, ?_, ?_, ?_⟩
          · rw [hfa]
            exact brun_step
              (bstep_leaf_some heap a b 1 σ k v rest pk vd cap heap[b]
                (by omega) (List.getElem?_eq_getElem hbl))
              (by simp)
          · intro b' hb' hb'a hb'b
            have hbb' : b ≠ b' := fun he => hb'b (by rw [he])
            rw [List.getElem?_set_ne hb'a.symm, List.getElem?_set_ne hbb']
          · intro b' hb'
            injection hb' with hb'
            subst hb'
            refine ⟨heap[b], List.getElem?_eq_getElem hbl, ?_⟩
            rw [List.getElem?_set_ne hbne.symm, List.getElem?_set_self hbl]
            rfl
          · rw [buildL.eq_def]
            simp
          · show ((heap.set b _).set a ⟨some k, none, .val v⟩)[a]? = _
            rw [List.getElem?_set_self (by simpa using ha)]
    · have h2 : 2 ≤ n := by omega
      have hstep : Nat.log2 n = Nat.log2 (n / 2) + 1 := log2_step h2
      have hlog1 : 1 ≤ Nat.log2 n := log2_one_le h2
      have hroom : σ.length + 2 ≤ cap := by omega
      have hnd : heap[a]? = some heap[a] := List.getElem?_eq_getElem ha
      obtain ⟨hp2, hhp2⟩ : ∃ x : List (HNode K V),
          x = (heap ++ [defaultHNode, defaultHNode]).set a
              ⟨heap[a].key, some (heap.length + 1), .node heap.length⟩ :=
        ⟨_, rfl⟩
      have hlen2 : hp2.length = heap.length + 2 := by
        rw [hhp2]
        simp
      have hrec2 : hp2[a]? = some ⟨heap[a].key, some (heap.length + 1),
          .node heap.length⟩ := by
        rw [hhp2]
        rw [List.getElem?_set_self (by simp; omega)]
      have hun2 : ∀ b, b < heap.length → b ≠ a → hp2[b]? = heap[b]? := by
        intro b hb hba
        rw [hhp2, List.getElem?_set_ne hba.symm]
        exact List.getElem?_append_left hb
      have e1 : brun ((2 * n - 1) + fuel)
            ⟨heap, ⟨a, a2, n⟩ :: σ, items, pk, vd, cap⟩
          = brun ((2 * (n / 2) - 1) + ((2 * (n - n / 2) - 1) + fuel))
              ⟨hp2, ⟨heap.length, a2, n / 2⟩
                 :: ⟨heap.length + 1, some a, n - n / 2⟩ :: σ,
               items, pk, vd, cap⟩ := by
        rw [show (2 * n - 1) + fuel
            = ((2 * (n / 2) - 1) + ((2 * (n - n / 2) - 1) + fuel)) + 1
            by omega, hhp2]
        exact brun_step
          (bstep_expand heap a a2 n σ items pk vd cap heap[a]
            (by omega) hnd hroom)
          (by simp)
      obtain ⟨hL, tl, eL, lenL, unL, wL, bL, sL⟩ :=
        ih (n / 2) (by omega) (by omega) hp2
          (⟨heap.length + 1, some a, n - n / 2⟩ :: σ) items pk vd cap
          heap.length a2 ((2 * (n - n / 2) - 1) + fuel)
          (by omega)
          (by
            intro b hb
            obtain ⟨h1b, h2b⟩ := ha2 b hb
            exact ⟨by omega, by omega⟩)
          (by
            simp only [List.length_cons]
            omega)
          (by omega)
      have hlogr : Nat.log2 (n - n / 2) ≤ Nat.log2 n := log2_le_log2 (by omega)
      obtain ⟨hRr, tr, eR, lenR, unR, wR, bR, sR⟩ :=
        ih (n - n / 2) (by omega) (by omega) hL σ (items.drop (n / 2))
          (scanOK pk vd ((items.take (n / 2)).map Prod.fst)).1
          (scanOK pk vd ((items.take (n / 2)).map Prod.fst)).2 cap
          (heap.length + 1) (some a) fuel
          (by omega)
          (by
            intro b hb
            injection hb with hb
            subst hb
            exact ⟨by omega, by omega⟩)
          (by omega)
          (by
            rw [List.length_drop]
            omega)
      have hdd : (items.drop (n / 2)).drop (n - n / 2) = items.drop n := by
        rw [List.drop_drop]
        congr 1
        omega
      have hscan : scanOK pk vd ((items.take n).map Prod.fst)
          = scanOK (scanOK pk vd ((items.take (n / 2)).map Prod.fst)).1
              (scanOK pk vd ((items.take (n / 2)).map Prod.fst)).2
              (((items.drop (n / 2)).take (n - n / 2)).map Prod.fst) := by
        conv_lhs => rw [show n = n / 2 + (n - n / 2) by omega]
        rw [List.take_add, List.map_append, scanOK_append]
      have hdlen : n - n / 2 ≤ (items.drop (n / 2)).length := by
        rw [List.length_drop]
        omega
      cases hd : items.drop (n / 2) with
      | nil =>
        rw [hd] at hdlen
        simp at hdlen
        omega
      | cons x rest1 =>
        obtain ⟨k1, v1⟩ := x
        have hne2 : a2 ≠ some a := fun hc => (ha2 a hc).2 rfl
        have hLa : hL[a]? = some ⟨heap[a].key, some (heap.length + 1),
            .node heap.length⟩ :=
          (unL a (by omega) (by omega) hne2).trans hrec2
        obtain ⟨nd0, hnd0, hRa⟩ := wR a rfl
        rw [hLa] at hnd0
        injection hnd0 with hnd0
        subst hnd0
        rw [hd] at hRa
        have sL2 : SubtreeAtR hRr heap.length hRr.length heap.length tl := by
          have agree : ∀ b, b = heap.length ∨ (hp2.length ≤ b ∧ b < hL.length) →
              hRr[b]? = hL[b]? := by
            intro b hb
            have hb3 : b < hL.length ∧ b ≠ heap.length + 1 ∧ a ≠ b := by
              rcases hb with rfl | hb2
              · exact ⟨by omega, by omega, by omega⟩
              · exact ⟨by omega, by omega, by omega⟩
            refine unR b hb3.1 hb3.2.1 (fun hc => ?_)
            injection hc with hc
            exact hb3.2.2 hc
          have sm := subtreeR_mono tl heap.length agree sL
          exact subtreeR_widen (by omega) (by omega) tl heap.length sm
        have sR2 : SubtreeAtR hRr heap.length hRr.length (heap.length + 1) tr :=
          subtreeR_widen (by omega) le_rfl tr (heap.length + 1) sR
        have bR2 := bR
        rw [hd] at bR2
        refine ⟨hRr, .nd k1 tl tr, ?_, by omega, ?_, ?_, ?_, ?_⟩
        · rw [hscan, ← hdd]
          exact e1.trans (eL.trans eR)
        · intro b hb hba hbb
          have h1b : hRr[b]? = hL[b]? := by
            refine unR b (by omega) (by omega) (fun hc => ?_)
            injection hc with hc
            exact absurd hc.symm hba
          have h2b : hL[b]? = hp2[b]? := unL b (by omega) (by omega) hbb
          rw [h1b, h2b, hun2 b hb hba]
        · intro b hb
          obtain ⟨hbl, hbne⟩ := ha2 b hb
          obtain ⟨nd1, hnd1, hLb⟩ := wL b hb
          have hb2 : hp2[b]? = heap[b]? := hun2 b hbl hbne
          refine ⟨nd1, by rw [← hb2]; exact hnd1, ?_⟩
          have h1b : hRr[b]? = hL[b]? := by
            refine unR b (by omega) (by omega) (fun hc => ?_)
            injection hc with hc
            exact absurd hc.symm hbne
          rw [h1b, hLb]
        · rw [buildL.eq_def]
          simp only [if_neg h1, bL, hd, bR2]
          rw [← hd, hdd]
        · exact ⟨heap.length, heap.length + 1, by omega, by omega, by omega,
            by omega, by rw [hRa]; rfl, sL2, sR2⟩

end Octads


namespace Octads

variable {K V : Type}

/-! ## `from_sorted` versus inserting in order (claim C3) -/

/-- Inserting a key above every stored key appends the new leaf at the end
of the in-order leaf list. -/
theorem toList_insertS_max [LinearOrder K] (k : K) (v : V) :
    ∀ s : STree K V, Inv s → (∀ x ∈ leafKeys s, x < k) →
      toList (insertS k v s).2 = toList s ++ [(k, v)] := by
  intro s
  induction s with
  | lf key v0 =>
    intro _ hmax
    have hlt : key < k := hmax key (by simp [leafKeys_lf])
    have hne : ¬ k = key := fun he => absurd (he ▸ hlt) (lt_irrefl k)
    simp [insertS, if_neg hne, if_pos hlt, toList]
  | nd key l r ihl ihr =>
    intro hInv hmax
    obtain ⟨hkl, hkr, hil, hir⟩ := hInv
    obtain ⟨x0, hx0⟩ : ∃ x, x ∈ leafKeys r := by
      cases hr : leafKeys r with
      | nil =>
        exfalso
        have := toList_ne_nil r
        simp [leafKeys] at hr
        exact this hr
      | cons y ys => exact ⟨y, by simp [hr]⟩
    have hklt : ¬ k < key :=
      fun hc => absurd (lt_trans (lt_of_le_of_lt (hkr x0 hx0)
        (hmax x0 (by rw [leafKeys_nd]; exact List.mem_append_right _ hx0))) hc)
        (lt_irrefl key)
    simp only [insertS, if_neg hklt, toList]
    rw [ihr hir (fun x hx => hmax x
      (by rw [leafKeys_nd]; exact List.mem_append_right _ hx))]
    rw [List.append_assoc]

/-- The recursive build of a strictly-ascending slice satisfies the tree
order invariant: each internal routing key is the first key of its right
half. -/
theorem inv_buildL [LinearOrder K] :
    ∀ n, 1 ≤ n → ∀ items : List (K × V), n ≤ items.length →
      List.Pairwise (· < ·) ((items.take n).map Prod.fst) →
      ∀ t rest, buildL n items = some (t, rest) → Inv t := by
  intro n
  induction n using Nat.strong_induction_on with
  | _ n ih =>
    intro hn items hlen hp t rest hb
    by_cases h1 : n ≤ 1
    · have hn1 : n = 1 := by omega
      subst hn1
      cases items with
      | nil => simp at hlen
      | cons x rest0 =>
        obtain ⟨k, v⟩ := x
        rw [buildL.eq_def] at hb
        simp only [if_pos (le_refl 1)] at hb
        injection hb with hb
        injection hb with hb1 hb2
        rw [← hb1]
        trivial
    · have h2 : 2 ≤ n := by omega
      obtain ⟨tl, hbl, htl, hhl⟩ := buildL_spec (n / 2) (by omega) items (by omega)
      have hdlen : n - n / 2 ≤ (items.drop (n / 2)).length := by
        rw [List.length_drop]
        omega
      cases hd : items.drop (n / 2) with
      | nil =>
        rw [hd] at hdlen
        simp at hdlen
        omega
      | cons y rest1 =>
        obtain ⟨k1, v1⟩ := y
        rw [hd] at hdlen
        obtain ⟨tr, hbr, htr, hhr⟩ :=
          buildL_spec (n - n / 2) (by omega) ((k1, v1) :: rest1) hdlen
        have hb' : buildL n items = some (.nd k1 tl tr,
            ((k1, v1) :: rest1).drop (n - n / 2)) := by
          rw [buildL.eq_def]
          simp only [if_neg h1, hbl, hd, hbr]
        rw [hb'] at hb
        injection hb with hb
        injection hb with hb1 hb2
        -- split the sorted keys of the first n items at n / 2
        have hsplit : (items.take n).map Prod.fst
            = (items.take (n / 2)).map Prod.fst
              ++ (((k1, v1) :: rest1).take (n - n / 2)).map Prod.fst := by
          conv_lhs => rw [show n = n / 2 + (n - n / 2) by omega]
          rw [List.take_add, List.map_append, hd]
        rw [hsplit] at hp
        have hpl := (List.pairwise_append.mp hp).1
        have hpr := (List.pairwise_append.mp hp).2.1
        have hcross := (List.pairwise_append.mp hp).2.2
        obtain ⟨m2, hm2⟩ : ∃ m2, n - n / 2 = m2 + 1 := ⟨n - n / 2 - 1, by omega⟩
        have htk : ((k1, v1) :: rest1).take (n - n / 2)
            = (k1, v1) :: rest1.take m2 := by
          rw [hm2]
          exact List.take_succ_cons
        have hk1mem : k1 ∈ (((k1, v1) :: rest1).take (n - n / 2)).map Prod.fst := by
          rw [htk]
          simp
        rw [← hb1]
        refine ⟨?_, ?_, ?_, ?_⟩
        · intro x hx
          refine hcross x ?_ k1 hk1mem
          rw [leafKeys, htl] at hx
          exact hx
        · intro x hx
          rw [leafKeys, htr] at hx
          rw [htk] at hx hpr
          simp only [List.map_cons, List.mem_cons] at hx
          simp only [List.map_cons] at hpr
          rcases hx with hx | hx
          · exact le_of_eq hx.symm
          · exact le_of_lt (List.rel_of_pairwise_cons hpr hx)
        · exact ih (n / 2) (by omega) (by omega) items (by omega) hpl tl
            (items.drop (n / 2)) hbl
        · exact ih (n - n / 2) (by omega) (by omega) ((k1, v1) :: rest1)
            hdlen hpr tr (((k1, v1) :: rest1).drop (n - n / 2)) hbr

/-- A tree's `get` is determined, under the order invariant, by its in-order
entry list: two well-formed trees with the same entries answer every `get`
identically. -/
theorem getS_mem [LinearOrder K] :
    ∀ s : STree K V, Inv s → ∀ k v, (k, v) ∈ toList s → getS s k = some v := by
  intro s
  induction s with
  | lf key v0 =>
    intro _ k v h
    simp only [toList, List.mem_singleton] at h
    injection h with h1 h2
    subst h1
    subst h2
    simp [getS]
  | nd key l r ihl ihr =>
    intro hInv k v h
    obtain ⟨hkl, hkr, hil, hir⟩ := hInv
    simp only [toList, List.mem_append] at h
    rcases h with h | h
    · have hk : k < key := hkl k (List.mem_map_of_mem Prod.fst h)
      rw [getS, if_pos hk]
      exact ihl hil k v h
    · have hk : key ≤ k := hkr k (List.mem_map_of_mem Prod.fst h)
      rw [getS, if_neg (not_lt_of_le hk)]
      exact ihr hir k v h

theorem get_eq_of_entries [LinearOrder K] (t1 t2 : SearchTree K V)
    (h1 : t1.Wf) (h2 : t2.Wf) (he : t1.entries = t2.entries) (k : K) :
    t1.get k = t2.get k := by
  cases t1 with | mk r1 n1 =>
  cases t2 with | mk r2 n2 =>
  cases r1 with
  | none =>
    cases r2 with
    | none => rfl
    | some s2 =>
      exfalso
      exact toList_ne_nil s2 (by simpa [SearchTree.entries] using he.symm)
  | some s1 =>
    cases r2 with
    | none =>
      exfalso
      exact toList_ne_nil s1 (by simpa [SearchTree.entries] using he)
    | some s2 =>
      have hts : toList s1 = toList s2 := by
        simpa [SearchTree.entries] using he
      show getS s1 k = getS s2 k
      by_cases hk : k ∈ leafKeys s1
      · simp only [leafKeys, List.mem_map] at hk
        obtain ⟨⟨k0, v⟩, hmem, hk0⟩ := hk
        subst hk0
        rw [getS_mem s1 h1 k0 v hmem, getS_mem s2 h2 k0 v (hts ▸ hmem)]
      · rw [getS_eq_none_of_not_mem hk,
          getS_eq_none_of_not_mem (by rwa [leafKeys, ← hts])]

end Octads

namespace Octads

variable {K V : Type}

/-- On an input of length `n ≥ 1` the loop of `from_sorted` terminates
within the `2n` iterations of fuel the runner grants, without any stack
overflow or item exhaustion: it ends with an empty stack, all items
consumed, the `is_valid` flag holding the result of the `prev_key` scan,
and the heap decoding (at the root, with fuel `n + 1`) to the recursive
build of the items. -/
theorem fromSorted_run [LinearOrder K] (items : List (K × V))
    (hn : 1 ≤ items.length) :
    ∃ (hR : List (HNode K V)) (t : STree K V),
      brun (2 * items.length) (fromSortedInit items)
        = .ok ⟨hR, [], [],
            (scanOK none true (items.map Prod.fst)).1,
            (scanOK none true (items.map Prod.fst)).2,
            Nat.log2 items.length + 1⟩ ∧
      toList t = items ∧
      buildL items.length items = some (t, []) ∧
      readTree hR 0 (items.length + 1) = some t := by
  obtain ⟨hR, t, e, hlen, hun, hw, hb, hsub⟩ :=
    brun_frame items.length hn [defaultHNode] [] items none true
      (Nat.log2 items.length + 1) 0 none 1 (by simp) (by simp)
      (by simp) le_rfl
  rw [brun_empty, List.take_length, List.drop_length] at e
  obtain ⟨t2, hb2, htl2, hht2⟩ := buildL_spec items.length hn items le_rfl
  rw [hb2] at hb
  injection hb with hb
  injection hb with hb hbr
  subst hb
  rw [List.drop_length] at hb2
  refine ⟨hR, t2, ?_, htl2.trans (by simp), hb2, ?_⟩
  · rw [show (2 : Nat) * items.length = (2 * items.length - 1) + 1 by omega]
    exact e
  · exact readTree_of_subtreeR t2 0 (items.length + 1) hsub (by omega)

/-- `from_sorted` on a strictly-ascending input of length `≥ 1` returns a
tree whose leaves are exactly the input pairs, with length field `n`. -/
theorem fromSorted_ok [LinearOrder K] (items : List (K × V))
    (hn : 1 ≤ items.length)
    (hs : List.Chain' (· < ·) (items.map Prod.fst)) :
    ∃ t, fromSorted items = .ok ⟨some t, items.length⟩ ∧ toList t = items ∧
      Inv t := by
  obtain ⟨hR, t, hrun, htl, hbuild, hread⟩ := fromSorted_run items hn
  have hpw : List.Pairwise (· < ·) ((items.take items.length).map Prod.fst) := by
    rw [List.take_length]
    exact List.chain'_iff_pairwise.mp hs
  refine ⟨t, ?_, htl, inv_buildL items.length hn items le_rfl hpw t [] hbuild⟩
  rw [fromSorted, if_neg (show ¬ items.length = 0 by omega), hrun]
  show (if (scanOK none true (items.map Prod.fst)).2 = true then _ else _) = _
  rw [scanOK_snd, Bool.true_and]
  have hs2 : ChainFrom (none : Option K) (items.map Prod.fst) := hs
  rw [if_pos (decide_eq_true hs2)]
  simp only [hread]

/-- `from_sorted` on a non-ascending input of length `≥ 1` aborts with the
"not sorted" panic. -/
theorem fromSorted_bad [LinearOrder K] (items : List (K × V))
    (hn : 1 ≤ items.length)
    (hs : ¬ List.Chain' (· < ·) (items.map Prod.fst)) :
    fromSorted items = .error .notSorted := by
  obtain ⟨hR, t, hrun, htl, hbuild, hread⟩ := fromSorted_run items hn
  rw [fromSorted, if_neg (show ¬ items.length = 0 by omega), hrun]
  show (if (scanOK none true (items.map Prod.fst)).2 = true then _ else _) = _
  rw [scanOK_snd, Bool.true_and]
  have hs2 : ¬ ChainFrom (none : Option K) (items.map Prod.fst) := hs
  rw [if_neg (fun hc => hs2 (of_decide_eq_true hc))]

end Octads

namespace Octads

variable {K V : Type}

/-- "Inserting the same pairs in order into an empty tree"
(`SearchTree::insert` folded over the input from `SearchTree::new`). -/
def insertList [LinearOrder K] (items : List (K × V)) : SearchTree K V :=
  items.foldl (fun t kv => (t.insert kv.1 kv.2).2) SearchTree.empty

/-- `insert` of a key above every stored key: the entry list gains the pair
at the end, well-formedness is kept, and the length field increments. -/
theorem insert_max_entries [LinearOrder K] (t : SearchTree K V) (k : K)
    (v : V) (hwf : t.Wf) (hmax : ∀ x ∈ t.entries.map Prod.fst, x < k) :
    ((t.insert k v).2).entries = t.entries ++ [(k, v)] ∧
    ((t.insert k v).2).Wf ∧
    ((t.insert k v).2).length = t.length + 1 := by
  cases t with
  | mk root len =>
    cases root with
    | none =>
      refine ⟨rfl, ?_, rfl⟩
      show Inv (.lf k v)
      trivial
    | some s =>
      have hInv : Inv s := hwf
      have hmax' : ∀ x ∈ leafKeys s, x < k := hmax
      refine ⟨?_, ?_, rfl⟩
      · show toList (insertS k v s).2 = toList s ++ [(k, v)]
        exact toList_insertS_max k v s hInv hmax'
      · show Inv (insertS k v s).2
        exact inv_insertS s k v hInv

/-- Folding `insert` over pairs whose keys all exceed the stored keys and
ascend strictly appends them to the entry list. -/
theorem foldl_insert_spec [LinearOrder K] :
    ∀ (items : List (K × V)) (t : SearchTree K V), t.Wf →
      List.Pairwise (· < ·) (t.entries.map Prod.fst ++ items.map Prod.fst) →
      (items.foldl (fun t kv => (t.insert kv.1 kv.2).2) t).entries
          = t.entries ++ items ∧
      (items.foldl (fun t kv => (t.insert kv.1 kv.2).2) t).Wf ∧
      (items.foldl (fun t kv => (t.insert kv.1 kv.2).2) t).length
          = t.length + items.length := by
  intro items
  induction items with
  | nil =>
    intro t hwf _
    exact ⟨by simp, hwf, by simp⟩
  | cons x rest ihr =>
    obtain ⟨k, v⟩ := x
    intro t hwf hp
    simp only [List.map_cons] at hp
    have hmax : ∀ y ∈ t.entries.map Prod.fst, y < k := by
      intro y hy
      exact (List.pairwise_append.mp hp).2.2 y hy k (by simp)
    obtain ⟨he1, hw1, hl1⟩ := insert_max_entries t k v hwf hmax
    rw [List.foldl_cons]
    have hp2 : List.Pairwise (· < ·)
        (((t.insert k v).2).entries.map Prod.fst ++ rest.map Prod.fst) := by
      rw [he1]
      have heq : (t.entries ++ [(k, v)]).map Prod.fst ++ rest.map Prod.fst
          = t.entries.map Prod.fst ++ (k :: rest.map Prod.fst) := by
        simp
      rw [heq]
      exact hp
    obtain ⟨he2, hw2, hl2⟩ := ihr (t.insert k v).2 hw1 hp2
    refine ⟨?_, hw2, ?_⟩
    · rw [he2, he1, List.append_assoc]
      rfl
    · rw [hl2, hl1]
      simp only [List.length_cons]
      omega

/-- C3.  On every input of `n ≥ 1` pairs: if the keys ascend strictly,
`from_sorted` returns a tree whose external behaviour — `len`, the entry
sequence an iteration yields, and every `get` — is identical to that of
inserting the same pairs in order into an empty tree (and both equal the
input list); if the keys do not ascend strictly, `from_sorted` aborts with
the "not sorted or unique" panic instead of returning a tree
(search_tree.rs:215-303, panic at 296-301). -/
theorem c3_build_refines_inserts [LinearOrder K] (items : List (K × V))
    (hn : 1 ≤ items.length) :
    (List.Chain' (· < ·) (items.map Prod.fst) →
      ∃ T : SearchTree K V, fromSorted items = .ok T ∧
        T.len = (insertList items).len ∧
        T.entries = (insertList items).entries ∧
        (∀ k, T.get k = (insertList items).get k) ∧
        T.entries = items ∧ T.len = items.length) ∧
    (¬ List.Chain' (· < ·) (items.map Prod.fst) →
      fromSorted items = .error .notSorted) := by
  constructor
  · intro hs
    obtain ⟨t, hok, htl, hinv⟩ := fromSorted_ok items hn hs
    have hpw : List.Pairwise (· < ·)
        ((SearchTree.empty : SearchTree K V).entries.map Prod.fst
          ++ items.map Prod.fst) := by
      show List.Pairwise (· < ·) (([] : List K) ++ items.map Prod.fst)
      rw [List.nil_append]
      exact List.chain'_iff_pairwise.mp hs
    obtain ⟨hie, hiw, hil⟩ := foldl_insert_spec items SearchTree.empty
      trivial hpw
    have hUe : (insertList items).entries = items := by
      rw [insertList, hie]
      rfl
    have hUl : (insertList items).length = items.length := by
      rw [insertList, hil]
      simp [SearchTree.empty]
    refine ⟨⟨some t, items.length⟩, hok, ?_, ?_, ?_, htl, rfl⟩
    · show items.length = (insertList items).length
      rw [hUl]
    · show toList t = (insertList items).entries
      rw [hUe, htl]
    · intro k
      refine get_eq_of_entries ⟨some t, items.length⟩ (insertList items)
        hinv ?_ ?_ k
      · exact hiw
      · show toList t = (insertList items).entries
        rw [hUe, htl]
  · intro hs
    exact fromSorted_bad items hn hs

/-- Witness for C3 at the concrete ascending input
`[(1,10), (2,20), (3,30)]` (and its hypothesis `1 ≤ length`). -/
theorem c3_witness_check :
    1 ≤ ([((1 : Nat), (10 : Nat)), (2, 20), (3, 30)]).length ∧
    ((List.Chain' (· < ·)
        ([((1 : Nat), (10 : Nat)), (2, 20), (3, 30)].map Prod.fst) →
      ∃ T : SearchTree Nat Nat,
        fromSorted [((1 : Nat), (10 : Nat)), (2, 20), (3, 30)] = .ok T ∧
        T.len = (insertList [((1 : Nat), (10 : Nat)), (2, 20), (3, 30)]).len ∧
        T.entries
          = (insertList [((1 : Nat), (10 : Nat)), (2, 20), (3, 30)]).entries ∧
        (∀ k, T.get k
          = (insertList [((1 : Nat), (10 : Nat)), (2, 20), (3, 30)]).get k) ∧
        T.entries = [((1 : Nat), (10 : Nat)), (2, 20), (3, 30)] ∧
        T.len = [((1 : Nat), (10 : Nat)), (2, 20), (3, 30)].length) ∧
    (¬ List.Chain' (· < ·)
        ([((1 : Nat), (10 : Nat)), (2, 20), (3, 30)].map Prod.fst) →
      fromSorted [((1 : Nat), (10 : Nat)), (2, 20), (3, 30)]
        = .error .notSorted)) :=
  ⟨by decide, c3_build_refines_inserts [(1, 10), (2, 20), (3, 30)] (by decide)⟩

end Octads

namespace Octads

variable {K V : Type}

/-- C10.  `from_sorted` on an empty input (an exact-size iterator of length
0) panics while computing `length.ilog2()` for the work-stack capacity
(`u32::ilog2` panics on 0, search_tree.rs:247), before any sortedness
question arises; no tree is returned. -/
theorem c10_empty_input_panics [LinearOrder K] :
    fromSorted ([] : List (K × V)) = .error .ilogZero := rfl

end Octads

namespace Octads

variable {K V : Type}

/-! ## The `from_sorted` work-stack bound (claim C9) -/

/-- The loop of `from_sorted`, step-indexed: `bsteps j st` is the state
after `j` iterations of the `while !stack.is_empty()` loop (stopping early
once the stack empties), or the abort the loop hits on the way.  Unlike the
fuel-based `brun` it exposes every intermediate state, which is what the
stack bound quantifies over. -/
def bsteps [LinearOrder K] : Nat → BState K V → Except BErr (BState K V)
  | 0, st => .ok st
  | j + 1, st =>
    match st.stack with
    | [] => .ok st
    | _ :: _ =>
      match bstep st with
      | .error e => .error e
      | .ok st' => bsteps j st'

/-- The telescoping shape of the pending leaf counts, top of stack first:
every count is positive and at least the sum `s` of all counts above it. -/
def Tele : Nat → List Nat → Prop
  | _, [] => True
  | s, a :: rest => 1 ≤ a ∧ s ≤ a ∧ Tele (s + a) rest

theorem tele_cons {s a : Nat} {rest : List Nat} :
    Tele s (a :: rest) ↔ 1 ≤ a ∧ s ≤ a ∧ Tele (s + a) rest := Iff.rfl

theorem tele_mono : ∀ (ns : List Nat) (s s' : Nat), s' ≤ s →
    Tele s ns → Tele s' ns := by
  intro ns
  induction ns with
  | nil =>
    intro s s' _ _
    trivial
  | cons a rest ihr =>
    intro s s' hle h
    obtain ⟨h1, h2, h3⟩ := h
    exact ⟨h1, le_trans hle h2, ihr (s + a) (s' + a) (by omega) h3⟩

/-- Below a telescoping stack the total at least doubles per frame. -/
theorem tele_sum : ∀ (ns : List Nat) (s : Nat), 1 ≤ s → Tele s ns →
    s * 2 ^ ns.length ≤ s + ns.sum := by
  intro ns
  induction ns with
  | nil =>
    intro s _ _
    simp
  | cons a rest ihr =>
    intro s hs h
    obtain ⟨h1, h2, h3⟩ := h
    have hih := ihr (s + a) (by omega) h3
    have hgrow : s * 2 ^ (a :: rest).length ≤ (s + a) * 2 ^ rest.length := by
      rw [List.length_cons, pow_succ]
      have h2s : s * 2 ≤ s + a := by omega
      calc s * (2 ^ rest.length * 2) = s * 2 * 2 ^ rest.length := by ring
        _ ≤ (s + a) * 2 ^ rest.length :=
          Nat.mul_le_mul_right (2 ^ rest.length) h2s
    calc s * 2 ^ (a :: rest).length ≤ (s + a) * 2 ^ rest.length := hgrow
      _ ≤ (s + a) + rest.sum := hih
      _ = s + (a :: rest).sum := by
        simp
        omega

/-- A telescoping stack whose total count is at most `n ≥ 1` holds at most
`⌊log₂ n⌋ + 1` frames. -/
theorem tele_length (ns : List Nat) (n : Nat) (hn : 1 ≤ n)
    (ht : Tele 0 ns) (hsum : ns.sum ≤ n) :
    ns.length ≤ Nat.log2 n + 1 := by
  cases ns with
  | nil => simp
  | cons a rest =>
    obtain ⟨h1, _, h3⟩ := ht
    have h3' : Tele a rest := by
      have h0 : Tele (0 + a) rest := h3
      rwa [Nat.zero_add] at h0
    have hsum2 : a * 2 ^ rest.length ≤ a + rest.sum := tele_sum rest a h1 h3'
    have hpow : 2 ^ rest.length ≤ n := by
      calc 2 ^ rest.length ≤ a * 2 ^ rest.length :=
            Nat.le_mul_of_pos_left _ (by omega)
        _ ≤ a + rest.sum := hsum2
        _ = (a :: rest).sum := by simp
        _ ≤ n := hsum
    have hlog := (Nat.le_log2 (by omega)).mpr hpow
    simp only [List.length_cons]
    omega

/-- The machine invariant behind the stack bound: the pending leaf counts
telescope, their total is at most the input length, and the capacity is the
`⌊log₂ n⌋ + 1` that `from_sorted` allocates. -/
structure M9 (n : Nat) (st : BState K V) : Prop where
  tele : Tele 0 (st.stack.map Frame.number)
  hsum : (st.stack.map Frame.number).sum ≤ n
  hcap : st.cap = Nat.log2 n + 1

theorem bstep_nil_red [LinearOrder K] (hp : List (HNode K V))
    (it : List (K × V)) (pk : Option K) (vd : Bool) (cap : Nat) :
    bstep ⟨hp, [], it, pk, vd, cap⟩ = .ok ⟨hp, [], it, pk, vd, cap⟩ := rfl

/-- The heap after an expansion iteration (children allocated, parent
linked); split out so that the expansion reduction can be stated without
knowing whether `node1` is a live address. -/
def bexpHeap (hp : List (HNode K V)) (f : Frame) : List (HNode K V) :=
  match (hp ++ [defaultHNode, defaultHNode])[f.node1]? with
  | some nd => (hp ++ [defaultHNode, defaultHNode]).set f.node1
      { nd with left := .node hp.length, right := some (hp.length + 1) }
  | none => hp ++ [defaultHNode, defaultHNode]

theorem bstep_expand_red [LinearOrder K] (hp : List (HNode K V)) (f : Frame)
    (σ : List Frame) (it : List (K × V)) (pk : Option K) (vd : Bool)
    (cap : Nat) (h1 : 1 < f.number) (hroom : σ.length + 2 ≤ cap) :
    bstep ⟨hp, f :: σ, it, pk, vd, cap⟩ =
      .ok ⟨bexpHeap hp f, ⟨hp.length, f.node2, f.number / 2⟩
        :: ⟨hp.length + 1, some f.node1, f.number - f.number / 2⟩ :: σ,
        it, pk, vd, cap⟩ := by
  cases hnd : (hp ++ [defaultHNode, defaultHNode])[f.node1]? with
  | none => simp only [bstep, bexpHeap, hnd, if_pos h1, if_pos hroom]
  | some nd => simp only [bstep, bexpHeap, hnd, if_pos h1, if_pos hroom]

theorem bstep_exhaust_red [LinearOrder K] (hp : List (HNode K V)) (f : Frame)
    (σ : List Frame) (pk : Option K) (vd : Bool) (cap : Nat)
    (h1 : ¬ 1 < f.number) :
    bstep ⟨hp, f :: σ, [], pk, vd, cap⟩ = .error .itemsExhausted := by
  simp only [bstep, if_neg h1]

/-- The heap after a leaf iteration (the pending `node2` key write, then the
leaf write). -/
def bleafHeap [LinearOrder K] (hp : List (HNode K V)) (f : Frame) (k : K)
    (v : V) : List (HNode K V) :=
  (match f.node2 with
    | some a2 =>
      match hp[a2]? with
      | some nd => hp.set a2 { nd with key := some k }
      | none => hp
    | none => hp).set f.node1 ⟨some k, none, .val v⟩

theorem bstep_leaf_red [LinearOrder K] (hp : List (HNode K V)) (f : Frame)
    (σ : List Frame) (k : K) (v : V) (rest : List (K × V)) (pk : Option K)
    (vd : Bool) (cap : Nat) (h1 : ¬ 1 < f.number) :
    bstep ⟨hp, f :: σ, (k, v) :: rest, pk, vd, cap⟩ =
      .ok ⟨bleafHeap hp f k v, σ, rest, some k, vd && chk pk k, cap⟩ := by
  cases hn2 : f.node2 with
  | none => simp only [bstep, bleafHeap, hn2, if_neg h1]
  | some a2 =>
    cases hnd : hp[a2]? with
    | none => simp only [bstep, bleafHeap, hn2, hnd, if_neg h1]
    | some nd => simp only [bstep, bleafHeap, hn2, hnd, if_neg h1]

/-- One loop iteration keeps the invariant, and — the push assertion — can
never abort with a stack overflow: the telescoping shape of the would-be
new stack already bounds its length by the capacity. -/
theorem bstep_m9 [LinearOrder K] (n : Nat) (hn : 1 ≤ n) (st : BState K V)
    (hM : M9 n st) :
    bstep st ≠ .error .stackOverflow ∧
    ∀ st', bstep st = .ok st' → M9 n st' := by
  obtain ⟨ht, hs, hc⟩ := hM
  cases st with
  | mk hp stk it pk vd cap =>
    cases stk with
    | nil =>
      rw [bstep_nil_red]
      constructor
      · intro hcon
        exact Except.noConfusion hcon
      · intro st' h
        injection h with h
        rw [← h]
        exact ⟨ht, hs, hc⟩
    | cons f σ =>
      simp only [List.map_cons] at ht hs
      rw [tele_cons] at ht
      obtain ⟨h1, h2, h3⟩ := ht
      by_cases hnum : 1 < f.number
      · have ht' : Tele 0 (f.number / 2 :: (f.number - f.number / 2)
            :: σ.map Frame.number) := by
          rw [tele_cons]
          refine ⟨by omega, by omega, ?_⟩
          rw [tele_cons]
          refine ⟨by omega, by omega, ?_⟩
          exact tele_mono _ (0 + f.number) _ (by omega) h3
        have hs' : (f.number / 2 :: (f.number - f.number / 2)
            :: σ.map Frame.number).sum ≤ n := by
          simp only [List.sum_cons] at hs ⊢
          omega
        have hlen := tele_length _ n hn ht' hs'
        simp only [List.length_cons, List.length_map] at hlen
        have hroom : σ.length + 2 ≤ cap := by
          have hc2 : cap = Nat.log2 n + 1 := hc
          omega
        rw [bstep_expand_red hp f σ it pk vd cap hnum hroom]
        constructor
        · intro hcon
          exact Except.noConfusion hcon
        · intro st' h
          injection h with h
          rw [← h]
          refine ⟨?_, ?_, hc⟩
          · simp only [List.map_cons]
            exact ht'
          · simp only [List.map_cons]
            exact hs'
      · cases it with
        | nil =>
          rw [bstep_exhaust_red hp f σ pk vd cap hnum]
          constructor
          · intro hcon
            injection hcon with hcon
            exact BErr.noConfusion hcon
          · intro st' h
            exact Except.noConfusion h
        | cons x rest =>
          obtain ⟨k, v⟩ := x
          rw [bstep_leaf_red hp f σ k v rest pk vd cap hnum]
          constructor
          · intro hcon
            exact Except.noConfusion hcon
          · intro st' h
            injection h with h
            rw [← h]
            refine ⟨?_, ?_, hc⟩
            · exact tele_mono _ (0 + f.number) _ (by omega) h3
            · show (σ.map Frame.number).sum ≤ n
              simp only [List.sum_cons] at hs
              omega

/-- The invariant holds at every point the loop reaches, and no prefix of
the run aborts with a stack overflow. -/
theorem bsteps_m9 [LinearOrder K] (n : Nat) (hn : 1 ≤ n) :
    ∀ (j : Nat) (st : BState K V), M9 n st →
      (∀ st', bsteps j st = .ok st' → M9 n st') ∧
      bsteps j st ≠ .error .stackOverflow := by
  intro j
  induction j with
  | zero =>
    intro st hM
    constructor
    · intro st' h
      injection h with h
      rw [← h]
      exact hM
    · intro hcon
      exact Except.noConfusion hcon
  | succ j ihj =>
    intro st hM
    cases hstk : st.stack with
    | nil =>
      simp only [bsteps, hstk]
      constructor
      · intro st' h
        injection h with h
        rw [← h]
        exact hM
      · intro hcon
        exact Except.noConfusion hcon
    | cons f σ =>
      simp only [bsteps, hstk]
      obtain ⟨hne, hok⟩ := bstep_m9 n hn st hM
      cases hb : bstep st with
      | error e =>
        constructor
        · intro st' h
          exact Except.noConfusion h
        · intro hcon
          injection hcon with hcon
          exact hne (by rw [hb, hcon])
      | ok st1 =>
        have hM1 := hok st1 hb
        exact ihj st1 hM1

theorem m9_init [LinearOrder K] (items : List (K × V))
    (hn : 1 ≤ items.length) :
    M9 items.length (fromSortedInit (K := K) (V := V) items) := by
  refine ⟨?_, ?_, rfl⟩
  · show Tele 0 [items.length]
    exact ⟨hn, by omega, trivial⟩
  · show [items.length].sum ≤ items.length
    simp

/-- C9.  During `from_sorted` on an input of length `n ≥ 1`, at every point
of the construction loop the number of pending frames is at most
`⌊log₂ n⌋ + 1` — the capacity `from_sorted` gives the bounded stack
(search_tree.rs:247-248) — and no iteration of the loop can abort on the
`BoundedStack::push` overflow assertion (stacks.rs:105-114, modelled as
the `stackOverflow` abort of `bstep`). -/
theorem c9_stack_in_bounds [LinearOrder K] (items : List (K × V))
    (hn : 1 ≤ items.length) :
    (∀ (j : Nat) (st' : BState K V),
      bsteps j (fromSortedInit items) = .ok st' →
        st'.stack.length ≤ Nat.log2 items.length + 1) ∧
    (∀ j : Nat, bsteps j (fromSortedInit items) ≠ .error .stackOverflow) := by
  constructor
  · intro j st' h
    have hM := ((bsteps_m9 items.length hn j (fromSortedInit items)
      (m9_init items hn)).1 st' h)
    have hlen := tele_length (st'.stack.map Frame.number) items.length hn
      hM.tele hM.hsum
    simpa using hlen
  · intro j
    exact (bsteps_m9 items.length hn j (fromSortedInit items)
      (m9_init items hn)).2

/-- Witness for C9 at the concrete input `[(1,10), (2,20), (3,30)]` (and
its hypothesis `1 ≤ length`). -/
theorem c9_witness_check :
    1 ≤ ([((1 : Nat), (10 : Nat)), (2, 20), (3, 30)]).length ∧
    ((∀ (j : Nat) (st' : BState Nat Nat),
      bsteps j (fromSortedInit [((1 : Nat), (10 : Nat)), (2, 20), (3, 30)])
          = .ok st' →
        st'.stack.length
          ≤ Nat.log2 ([((1 : Nat), (10 : Nat)), (2, 20), (3, 30)]).length
            + 1) ∧
    (∀ j : Nat,
      bsteps j (fromSortedInit [((1 : Nat), (10 : Nat)), (2, 20), (3, 30)])
        ≠ .error .stackOverflow)) :=
  ⟨by decide, c9_stack_in_bounds [(1, 10), (2, 20), (3, 30)] (by decide)⟩

end Octads
